import Mathlib

/-!
Verification of the Gitea webhook ingestion pipeline
(`src/sentry/integrations/gitea/webhooks.py`).

The development shallowly embeds the webhook module: bytes are naturals
below 256, machine words are naturals reduced modulo `2 ^ 32`, the Django
ORM store is an explicit record of lists threaded through every operation,
and Python exceptions are explicit error values.  Library code that is not
part of the repository (hashlib/hmac, Django helpers, the host's model
layer) is modelled in definitions whose doc comments start with
`Modelled from the spec:`.
-/

set_option maxRecDepth 1000000

namespace Gitea

/-! ## Bytes, 32-bit words, SHA-256

`hashlib.sha256` and `hmac.new(..., digestmod=sha256)` are Python standard
library routines.  Modelled from the spec: "compute HMAC-SHA256 over
`rawBody` keyed by UTF-8-encoded `secret`; render as lowercase hex" — we
embed the FIPS 180-4 / RFC 2104 algorithms directly, over lists of byte
values (`Nat < 256`) with word arithmetic carried out modulo `2 ^ 32`. -/

/-- Reduce a natural to a 32-bit word. -/
def w32 (n : Nat) : Nat := n % 4294967296

/-- Right rotation of a 32-bit word by `n` places. -/
def rotr (n x : Nat) : Nat := w32 (x / 2 ^ n + x % 2 ^ n * 2 ^ (32 - n))

/-- Logical right shift. -/
def shr (n x : Nat) : Nat := x / 2 ^ n

/-- Bitwise complement within 32 bits (the argument is assumed `< 2 ^ 32`). -/
def compl32 (x : Nat) : Nat := 4294967295 ^^^ x

def chN (x y z : Nat) : Nat := (x &&& y) ^^^ (compl32 x &&& z)

def majN (x y z : Nat) : Nat := (x &&& y) ^^^ (x &&& z) ^^^ (y &&& z)

def bigSigma0 (x : Nat) : Nat := rotr 2 x ^^^ rotr 13 x ^^^ rotr 22 x

def bigSigma1 (x : Nat) : Nat := rotr 6 x ^^^ rotr 11 x ^^^ rotr 25 x

def smallSigma0 (x : Nat) : Nat := rotr 7 x ^^^ rotr 18 x ^^^ shr 3 x

def smallSigma1 (x : Nat) : Nat := rotr 17 x ^^^ rotr 19 x ^^^ shr 10 x

/-- The SHA-256 round constants (FIPS 180-4 §4.2.2). -/
def sha256K : List Nat :=
  [1116352408, 1899447441, 3049323471, 3921009573, 961987163, 1508970993,
   2453635748, 2870763221, 3624381080, 310598401, 607225278, 1426881987,
   1925078388, 2162078206, 2614888103, 3248222580, 3835390401, 4022224774,
   264347078, 604807628, 770255983, 1249150122, 1555081692, 1996064986,
   2554220882, 2821834349, 2952996808, 3210313671, 3336571891, 3584528711,
   113926993, 338241895, 666307205, 773529912, 1294757372, 1396182291,
   1695183700, 1986661051, 2177026350, 2456956037, 2730485921, 2820302411,
   3259730800, 3345764771, 3516065817, 3600352804, 4094571909, 275423344,
   430227734, 506948616, 659060556, 883997877, 958139571, 1322822218,
   1537002063, 1747873779, 1955562222, 2024104815, 2227730452, 2361852424,
   2428436474, 2756734187, 3204031479, 3329325298]

/-- Working state of the SHA-256 compression function. -/
structure Hash8 where
  a : Nat
  b : Nat
  c : Nat
  d : Nat
  e : Nat
  f : Nat
  g : Nat
  hh : Nat
deriving DecidableEq

def sha256Init : Hash8 :=
  ⟨1779033703, 3144134277, 1013904242, 2773480762, 1359893119, 2600822924, 528734635, 1541459225⟩

/-- One round of the SHA-256 compression function: the pair is
(round constant, schedule word). -/
def compressStep (st : Hash8) (kw : Nat × Nat) : Hash8 :=
  let t1 := w32 (st.hh + bigSigma1 st.e + chN st.e st.f st.g + kw.1 + kw.2)
  let t2 := w32 (bigSigma0 st.a + majN st.a st.b st.c)
  ⟨w32 (t1 + t2), st.a, st.b, st.c, w32 (st.d + t1), st.e, st.f, st.g⟩

/-- Extend a message schedule by one word. -/
def scheduleStep (ws : List Nat) : List Nat :=
  let n := ws.length
  ws ++ [w32 (smallSigma1 (ws.getD (n - 2) 0) + ws.getD (n - 7) 0 +
              smallSigma0 (ws.getD (n - 15) 0) + ws.getD (n - 16) 0)]

/-- Extend the 16 block words to the 64-word message schedule. -/
def sha256Schedule (block : List Nat) : List Nat :=
  (List.range 48).foldl (fun ws _ => scheduleStep ws) block

/-- Compress one 16-word block into the running hash state. -/
def compressBlock (st : Hash8) (block : List Nat) : Hash8 :=
  let f := (List.zip sha256K (sha256Schedule block)).foldl compressStep st
  ⟨w32 (st.a + f.a), w32 (st.b + f.b), w32 (st.c + f.c), w32 (st.d + f.d),
   w32 (st.e + f.e), w32 (st.f + f.f), w32 (st.g + f.g), w32 (st.hh + f.hh)⟩

/-- Big-endian byte rendering of a natural in `k` bytes. -/
def beBytes : Nat → Nat → List Nat
  | 0, _ => []
  | k + 1, n => beBytes k (n / 256) ++ [n % 256]

/-- SHA-256 padding: append `0x80`, zeros, and the 64-bit big-endian bit
length, reaching a multiple of 64 bytes. -/
def sha256Pad (msg : List Nat) : List Nat :=
  msg ++ [0x80] ++ List.replicate ((119 - msg.length % 64) % 64) 0 ++ beBytes 8 (8 * msg.length)

/-- Group bytes into big-endian 32-bit words. -/
def bytesToWords : List Nat → List Nat
  | b0 :: b1 :: b2 :: b3 :: rest => (((b0 * 256 + b1) * 256 + b2) * 256 + b3) :: bytesToWords rest
  | _ => []

/-- Group words into 16-word blocks. -/
def wordsToBlocks : List Nat → List (List Nat)
  | w0 :: w1 :: w2 :: w3 :: w4 :: w5 :: w6 :: w7 ::
    w8 :: w9 :: w10 :: w11 :: w12 :: w13 :: w14 :: w15 :: rest =>
      [w0, w1, w2, w3, w4, w5, w6, w7, w8, w9, w10, w11, w12, w13, w14, w15] :: wordsToBlocks rest
  | _ => []

/-- Big-endian bytes of a 32-bit word. -/
def wordBytes (n : Nat) : List Nat :=
  [n / 16777216 % 256, n / 65536 % 256, n / 256 % 256, n % 256]

/-- SHA-256 of a byte sequence, as the 32 digest bytes. -/
def sha256 (msg : List Nat) : List Nat :=
  let fin := (wordsToBlocks (bytesToWords (sha256Pad msg))).foldl compressBlock sha256Init
  wordBytes fin.a ++ wordBytes fin.b ++ wordBytes fin.c ++ wordBytes fin.d ++
  wordBytes fin.e ++ wordBytes fin.f ++ wordBytes fin.g ++ wordBytes fin.hh

/-- Lowercase hexadecimal digit for a value below 16. -/
def hexDigit (d : Nat) : Char := Char.ofNat (if d < 10 then 48 + d else 87 + d)

/-- Lowercase hexadecimal rendering of a byte sequence (Python `hexdigest`). -/
def bytesToHex (bs : List Nat) : String :=
  String.mk (bs.foldr (fun b acc => hexDigit (b / 16) :: hexDigit (b % 16) :: acc) [])

/-- HMAC-SHA256 (RFC 2104) of `msg` under `key`, digest bytes. -/
def hmacSha256 (key msg : List Nat) : List Nat :=
  let k0 := if 64 < key.length then sha256 key else key
  let k := k0 ++ List.replicate (64 - k0.length) 0
  sha256 (k.map (fun b => b ^^^ 0x5c) ++ sha256 (k.map (fun b => b ^^^ 0x36) ++ msg))

/-- `hmac.new(key, msg, sha256).hexdigest()`: lowercase-hex HMAC-SHA256. -/
def hmacSha256Hexdigest (key msg : List Nat) : String := bytesToHex (hmacSha256 key msg)

/-- UTF-8 encoding of one unicode code point. -/
def utf8EncodeChar (c : Nat) : List Nat :=
  if c < 0x80 then [c]
  else if c < 0x800 then [0xc0 + c / 0x40, 0x80 + c % 0x40]
  else if c < 0x10000 then [0xe0 + c / 0x1000, 0x80 + c / 0x40 % 0x40, 0x80 + c % 0x40]
  else [0xf0 + c / 0x40000, 0x80 + c / 0x1000 % 0x40, 0x80 + c / 0x40 % 0x40, 0x80 + c % 0x40]

/-- `str.encode("utf-8")`: UTF-8 bytes of a string. -/
def utf8Encode (s : String) : List Nat :=
  (s.data.map (fun c => utf8EncodeChar c.toNat)).flatten

/-! ## Constant-time comparison and `check_signature` -/

/-- Modelled from the spec: `django.utils.crypto.constant_time_compare`
"compare ... using constant-time string comparison".  True exactly when the
two strings are equal; computed as a length check plus a character fold
without early exit, mirroring the constant-time structure of
`hmac.compare_digest`. -/
def constant_time_compare (val1 val2 : String) : Bool :=
  (val1.length == val2.length) &&
    (List.zip val1.data val2.data).foldl (fun acc p => acc && (p.1 == p.2)) true

/-- `GiteaWebhookEndpoint.check_signature`: HMAC-SHA256 the raw body with the
UTF-8 encoded secret, render as lowercase hex, and compare to the provided
signature in constant time. -/
def check_signature (body : List Nat) (secret signature : String) : Bool :=
  constant_time_compare (hmacSha256Hexdigest (utf8Encode secret) body) signature

theorem ct_fold_eq_true {l : List (Char × Char)} {acc : Bool} :
    l.foldl (fun acc p => acc && (p.1 == p.2)) acc = true ↔
      acc = true ∧ ∀ p ∈ l, p.1 = p.2 := by
  induction l generalizing acc with
  | nil => simp
  | cons hd tl ih =>
    rw [List.foldl_cons, ih]
    simp [List.forall_mem_cons, and_assoc]

theorem mem_zip_self {l : List Char} {p : Char × Char} (hp : p ∈ List.zip l l) :
    p.1 = p.2 := by
  induction l with
  | nil => simp at hp
  | cons hd tl ih =>
    rcases (by simpa using hp : p = (hd, hd) ∨ p ∈ List.zip tl tl) with h | h
    · simp [h]
    · exact ih h

theorem zip_pointwise_eq {l1 l2 : List Char} (hlen : l1.length = l2.length) :
    (∀ p ∈ List.zip l1 l2, p.1 = p.2) ↔ l1 = l2 := by
  induction l1 generalizing l2 with
  | nil => cases l2 <;> simp_all
  | cons hd tl ih =>
    cases l2 with
    | nil => simp_all
    | cons hd2 tl2 =>
      have hlen' : tl.length = tl2.length := by simpa using hlen
      rw [List.zip_cons_cons]
      simp only [List.mem_cons, List.cons.injEq]
      constructor
      · intro h
        exact ⟨h (hd, hd2) (Or.inl rfl), (ih hlen').mp (fun p hp => h p (Or.inr hp))⟩
      · rintro ⟨rfl, rfl⟩ p hp
        rcases hp with rfl | hp
        · rfl
        · exact mem_zip_self hp

theorem constant_time_compare_iff (a b : String) :
    constant_time_compare a b = true ↔ a = b := by
  unfold constant_time_compare
  rw [Bool.and_eq_true, ct_fold_eq_true]
  constructor
  · rintro ⟨hlen, -, hpt⟩
    have hlen0 : a.length = b.length := by simpa using hlen
    have hlen' : a.data.length = b.data.length := hlen0
    exact String.ext ((zip_pointwise_eq hlen').mp hpt)
  · rintro rfl
    exact ⟨by simp, rfl, fun p hp => mem_zip_self hp⟩

/-! ## The durable store

Modelled from the spec: the host's persistent store owns Installation
(= `Integration`), Organization, Repository, CommitAuthor, Commit and
PullRequest records (§3 of the spec); the pipeline reads the first three
and writes the last three.  Records are rows in explicit lists;
`next_author_id` models the primary-key sequence used when a CommitAuthor
row is inserted. -/

def PROVIDER_NAME : String := "integrations:gitea"

structure Metadata where
  instanceName : String
  webhook_secret : String
deriving DecidableEq

structure IntegrationRec where
  id : Nat
  provider : String
  external_id : String
  metadata : Metadata
  organizations : List Nat
deriving DecidableEq

structure RepositoryRec where
  id : Nat
  organization_id : Nat
  provider : String
  external_id : String
  name : String
  url : String
  config : List (String × String)
deriving DecidableEq

structure CommitAuthorRec where
  id : Nat
  organization_id : Nat
  email : String
  name : String
deriving DecidableEq

structure CommitRec where
  repository_id : Nat
  organization_id : Nat
  key : String
  message : String
  author : Option Nat
  date_added : String
deriving DecidableEq

structure PullRequestRec where
  organization_id : Nat
  repository_id : Nat
  key : Int
  title : String
  author : Nat
  message : String
  merge_commit_sha : Option String
  date_added : String
deriving DecidableEq

structure Store where
  integrations : List IntegrationRec
  repositories : List RepositoryRec
  commit_authors : List CommitAuthorRec
  commits : List CommitRec
  pull_requests : List PullRequestRec
  next_author_id : Nat
deriving DecidableEq

/-- `dict.get(key)` on a configuration mapping. -/
def lookupConfig : List (String × String) → String → Option String
  | [], _ => none
  | (k, v) :: rest, key => if k == key then some v else lookupConfig rest key

/-- `dict(cfg, key=value)`: replace the first binding of `key`, else append. -/
def configInsert : List (String × String) → String → String → List (String × String)
  | [], key, value => [(key, value)]
  | (k, v) :: rest, key, value =>
      if k == key then (key, value) :: rest else (k, v) :: configInsert rest key value

/-- Python exceptions that can escape pipeline code. -/
inductive Exc where
  | keyError (key : String)
  | nameError (name : String)
  | http404
  | multipleObjectsReturned
deriving DecidableEq

/-- Result of one handler invocation: normal return or a raised exception,
each carrying the store as mutated so far and the log events emitted. -/
inductive HRes where
  | ok (s : Store) (logs : List String)
  | exc (e : Exc) (s : Store) (logs : List String)
deriving DecidableEq

/-- `Repository.objects.get(organization_id=…, provider=PROVIDER_NAME,
external_id=…)`: the matching rows. -/
def repoQuery (s : Store) (orgId : Nat) (extId : String) : List RepositoryRec :=
  s.repositories.filter
    (fun r => r.organization_id == orgId && r.provider == PROVIDER_NAME && r.external_id == extId)

/-- `Integration.objects.filter(provider=…, external_id=…)`: the matching rows. -/
def integrationQuery (s : Store) (provider extId : String) : List IntegrationRec :=
  s.integrations.filter (fun i => i.provider == provider && i.external_id == extId)

/-- Rows matching `CommitAuthor.objects.get_or_create(organization_id=…, email=…)`. -/
def authorQuery (s : Store) (orgId : Nat) (email : String) : List CommitAuthorRec :=
  s.commit_authors.filter (fun a => a.organization_id == orgId && a.email == email)

/-- Modelled from the spec: `CommitAuthor` is "unique per organization+email;
created lazily on first sighting" — Django `get_or_create` returns the
existing row or inserts one with the default name; two or more existing
matches raise `MultipleObjectsReturned`. -/
def commitAuthorGetOrCreate (s : Store) (orgId : Nat) (email name : String) :
    Except Exc (CommitAuthorRec × Store) :=
  match authorQuery s orgId email with
  | [a] => .ok (a, s)
  | [] =>
      let a : CommitAuthorRec := ⟨s.next_author_id, orgId, email, name⟩
      .ok (a, { s with commit_authors := s.commit_authors ++ [a],
                       next_author_id := s.next_author_id + 1 })
  | _ :: _ :: _ => .error .multipleObjectsReturned

/-- Is there a Commit row with this (repository, external key)? -/
def commitExists (s : Store) (rid : Nat) (key : String) : Bool :=
  s.commits.any (fun c => c.repository_id == rid && c.key == key)

/-- Modelled from the spec: `Commit` is a "(repository, external key) unique
record"; `Commit.objects.create` raises `IntegrityError` on a duplicate and
the handler's `try/except IntegrityError: pass` swallows it, so the
combined effect is insert-unless-present. -/
def commitCreateOrIgnore (s : Store) (c : CommitRec) : Store :=
  if commitExists s c.repository_id c.key then s
  else { s with commits := s.commits ++ [c] }

/-- Modelled from the spec: `PullRequest.create_or_save` — "Upserts
(create-or-update, keyed by repository + PR number)"; a racing duplicate's
`IntegrityError` is swallowed by the caller, which cannot occur in this
sequential model. -/
def pullRequestCreateOrSave (s : Store) (orgId rid : Nat) (key : Int) (title : String)
    (authorId : Nat) (message : String) (msha : Option String) (date : String) : Store :=
  if s.pull_requests.any (fun p => p.repository_id == rid && p.key == key) then
    { s with pull_requests := s.pull_requests.map (fun p =>
        if p.repository_id == rid && p.key == key then
          { p with title := title, author := authorId, message := message,
                   merge_commit_sha := msha, date_added := date }
        else p) }
  else
    { s with pull_requests := s.pull_requests ++ [⟨orgId, rid, key, title, authorId, message, msha, date⟩] }

/-- Does `pat` begin `text`? (structural, so it evaluates in the kernel) -/
def leadsWith : List Char → List Char → Bool
  | [], _ => true
  | _ :: _, [] => false
  | p :: ps, t :: ts => (p == t) && leadsWith ps ts

/-- Does `pat` occur inside `text`? -/
def hasSub (pat : List Char) : List Char → Bool
  | [] => leadsWith pat []
  | t :: ts => leadsWith pat (t :: ts) || hasSub pat ts

/-- Modelled from the spec: `IntegrationRepositoryProvider.should_ignore_commit`
is outside this repository fragment; the spec says push handling skips
"entries whose message matches a configured 'ignore' pattern (merge-commit
suppression convention shared with other providers)".  We model the pattern
as the message containing the marker `#skipsentry`. -/
def should_ignore_commit (message : String) : Bool :=
  hasSub "#skipsentry".data message.data

/-- Modelled from the spec: `dateutil.parser.parse(…).astimezone(timezone.utc)` —
"Timestamp is parsed from an ISO-8601 string and normalized to UTC".  No
claim inspects the parsed value, so the normalization is modelled as the
identity on the timestamp string. -/
def parse_datetime (ts : String) : String := ts

/-! ## Webhook payloads

The JSON body is duck-typed in the source; we model each event kind as a
record of optional fields, where an absent field (`none`) corresponds to a
missing JSON key (Python `KeyError` on subscript).  An email field can also
be present but JSON `null`, hence `Option (Option String)`. -/

structure RepoPayload where
  full_name : Option String
  html_url : Option String
deriving DecidableEq

structure UserPayload where
  username : Option String
  email : Option (Option String)
deriving DecidableEq

structure AuthorPayload where
  name : Option String
  email : Option (Option String)
deriving DecidableEq

structure CommitPayload where
  id : Option String
  message : Option String
  timestamp : Option String
  author : Option AuthorPayload
deriving DecidableEq

structure PRPayload where
  number : Option Int
  title : Option String
  body : Option String
  created_at : Option String
  user : Option UserPayload
  merged : Option Bool
  merge_commit_sha : Option String
deriving DecidableEq

structure Event where
  secret : Option String
  repository : Option RepoPayload
  commits : Option (List CommitPayload)
  pull_request : Option PRPayload
deriving DecidableEq

/-! ## `Webhook.get_repo` and `Webhook.update_repo_data` -/

/-- `Webhook.get_repo`: read `event["repository"]["full_name"]` (a missing key
logs `missing-repo-name` and raises `Http404`), build the external id
`"<instance>:<full_name>"`, and look the Repository up by
(organization, provider, external id); `DoesNotExist` yields `None`. -/
def get_repo (s : Store) (integration : IntegrationRec) (orgId : Nat) (event : Event) :
    Except (Exc × List String) (Option RepositoryRec) :=
  match event.repository with
  | none => .error (.http404, ["gitea.webhook.missing-repo-name"])
  | some er =>
    match er.full_name with
    | none => .error (.http404, ["gitea.webhook.missing-repo-name"])
    | some repo_name =>
      match repoQuery s orgId (integration.metadata.instanceName ++ ":" ++ repo_name) with
      | [] => .ok none
      | [r] => .ok (some r)
      | _ :: _ :: _ => .error (.multipleObjectsReturned, [])

/-- The field assignment performed by `repo.update(name=…, url=…, config=…)`:
rows with the fetched repository's primary key receive the event's name and
URL and the fetched row's config extended with `path = full_name`. -/
def updFn (repo : RepositoryRec) (fn u : String) (r : RepositoryRec) : RepositoryRec :=
  if r.id == repo.id then
    { r with name := fn, url := u, config := configInsert repo.config "path" fn }
  else r

/-- `Webhook.update_repo_data`: if the stored name, URL, or `config["repo"]`
differs from the event's `repository.full_name`/`html_url`, update the row
(by primary key) with the new name, URL, and `config` extended with
`path = full_name`. -/
def update_repo_data (s : Store) (repo : RepositoryRec) (event : Event) : Except Exc Store :=
  match event.repository with
  | none => .error (.keyError "repository")
  | some er =>
    match er.full_name, er.html_url with
    | none, _ => .error (.keyError "full_name")
    | some _, none => .error (.keyError "html_url")
    | some fn, some u =>
      if repo.name != fn || repo.url != u || lookupConfig repo.config "repo" != some fn then
        .ok { s with repositories := s.repositories.map (updFn repo fn u) }
      else
        .ok s

/-! ## `PushEventWebhook.__call__` -/

/-- Evaluation of the `Commit.objects.create(...)` call's remaining arguments
(`key=commit["id"]`, `date_added=parse(commit["timestamp"])`, both raising
`KeyError` when missing) followed by the guarded insert. -/
def commitFinish (c : CommitPayload) (orgId rid : Nat) (message : String) (author : Option Nat)
    (authors : List (String × Nat)) (s : Store) :
    Except (Exc × Store) (List (String × Nat) × Store) :=
  match c.id with
  | none => .error (.keyError "id", s)
  | some cid =>
    match c.timestamp with
    | none => .error (.keyError "timestamp", s)
    | some ts =>
      .ok (authors, commitCreateOrIgnore s ⟨rid, orgId, cid, message, author, parse_datetime ts⟩)

/-- One iteration of the push handler's commit loop, in source order:
read `message` and test `should_ignore_commit`; read `author`/`email`;
treat a `None` or over-75-character email as "no author"; otherwise find
the author in the per-call cache or `get_or_create` it (evaluating
`author["name"]` for the defaults dict first); then build and insert the
Commit row. -/
def stepCommit (c : CommitPayload) (orgId rid : Nat) (authors : List (String × Nat))
    (s : Store) : Except (Exc × Store) (List (String × Nat) × Store) :=
  match c.message with
  | none => .error (.keyError "message", s)
  | some message =>
    if should_ignore_commit message then .ok (authors, s)
    else
      match c.author with
      | none => .error (.keyError "author", s)
      | some ap =>
        match ap.email with
        | none => .error (.keyError "email", s)
        | some emailVal =>
          match emailVal with
          | none => commitFinish c orgId rid message none authors s
          | some author_email =>
            if 75 < author_email.length then commitFinish c orgId rid message none authors s
            else
              match authors.filter (fun p => p.1 == author_email) with
              | (_, aid) :: _ => commitFinish c orgId rid message (some aid) authors s
              | [] =>
                match ap.name with
                | none => .error (.keyError "name", s)
                | some nm =>
                  match commitAuthorGetOrCreate s orgId author_email nm with
                  | .error e => .error (e, s)
                  | .ok (a, s2) =>
                      commitFinish c orgId rid message (some a.id)
                        (authors ++ [(author_email, a.id)]) s2

/-- The push handler's `for commit in event.get("commits", [])` loop;
`authors` is the per-call email → CommitAuthor-id cache.  An exception
aborts the loop, carrying the store as mutated so far. -/
def processCommits (orgId rid : Nat) :
    List CommitPayload → List (String × Nat) → Store → Except (Exc × Store) Store
  | [], _, s => .ok s
  | c :: rest, authors, s =>
    match stepCommit c orgId rid authors s with
    | .error es => .error es
    | .ok (authors2, s2) => processCommits orgId rid rest authors2 s2

/-- `PushEventWebhook.__call__`: resolve the repository (a missing local
repository is a silent no-op), refresh its stored data, then ingest each
commit entry. -/
def pushCall (s : Store) (integration : IntegrationRec) (orgId : Nat) (event : Event) : HRes :=
  match get_repo s integration orgId event with
  | .error (e, logs) => .exc e s logs
  | .ok none => .ok s []
  | .ok (some repo) =>
    match update_repo_data s repo event with
    | .error e => .exc e s []
    | .ok s1 =>
      match processCommits orgId repo.id (event.commits.getD []) [] s1 with
      | .error (e, s2) => .exc e s2 []
      | .ok s2 => .ok s2 []

/-! ## `PullRequestEventWebhook.__call__` -/

/-- Outcome of the pull-request handler's `try` block, which assigns local
variables in source order (`number`, `title`, `body`, `created_at`,
`user.username`, `user.email`, then `merged` / `merge_commit_sha`) and
catches `KeyError`.  A `KeyError` raised before `author_email` was assigned
leaves it `None`; one raised after (missing `merged`, or missing
`merge_commit_sha` while merged) leaves `merge_commit_sha` unbound. -/
inductive PRExtract where
  | complete (number : Int) (title message created_at author_name : String)
      (author_email : Option String) (msha : Option String)
  | earlyKeyError (missing : String)
  | lateKeyError (missing : String) (number : Int)
      (title message created_at author_name : String) (author_email : Option String)
deriving DecidableEq

def extractPR (event : Event) : PRExtract :=
  match event.pull_request with
  | none => .earlyKeyError "pull_request"
  | some pr =>
    match pr.number with
    | none => .earlyKeyError "number"
    | some number =>
      match pr.title with
      | none => .earlyKeyError "title"
      | some title =>
        match pr.body with
        | none => .earlyKeyError "body"
        | some message =>
          match pr.created_at with
          | none => .earlyKeyError "created_at"
          | some created_at =>
            match pr.user with
            | none => .earlyKeyError "user"
            | some user =>
              match user.username with
              | none => .earlyKeyError "username"
              | some author_name =>
                match user.email with
                | none => .earlyKeyError "email"
                | some author_email =>
                  match pr.merged with
                  | none => .lateKeyError "merged" number title message created_at
                      author_name author_email
                  | some merged =>
                    if merged then
                      match pr.merge_commit_sha with
                      | none => .lateKeyError "merge_commit_sha" number title message created_at
                          author_name author_email
                      | some sha => .complete number title message created_at author_name
                          author_email (some sha)
                    else
                      .complete number title message created_at author_name author_email none

/-- `PullRequestEventWebhook.__call__`: resolve and refresh the repository,
extract the pull-request fields (logging `invalid-pull-request-data` on a
`KeyError`), raise `Http404` when `author_email` is falsy (`None` or empty),
`get_or_create` the author, then upsert the PullRequest.  When the `try`
block died after `author_email` was assigned, the later use of the unbound
`merge_commit_sha` local raises `NameError` — after the author row was
already written. -/
def prCall (s : Store) (integration : IntegrationRec) (orgId : Nat) (event : Event) : HRes :=
  match get_repo s integration orgId event with
  | .error (e, logs) => .exc e s logs
  | .ok none => .ok s []
  | .ok (some repo) =>
    match update_repo_data s repo event with
    | .error e => .exc e s []
    | .ok s1 =>
      match extractPR event with
      | .earlyKeyError _ => .exc .http404 s1 ["gitea.webhook.invalid-pull-request-data"]
      | .lateKeyError _ _ _ _ _ author_name author_email =>
        match author_email with
        | none => .exc .http404 s1 ["gitea.webhook.invalid-pull-request-data"]
        | some email =>
          if email.length == 0 then
            .exc .http404 s1 ["gitea.webhook.invalid-pull-request-data"]
          else
            match commitAuthorGetOrCreate s1 orgId email author_name with
            | .error e => .exc e s1 ["gitea.webhook.invalid-pull-request-data"]
            | .ok (_, s2) =>
              .exc (.nameError "merge_commit_sha") s2 ["gitea.webhook.invalid-pull-request-data"]
      | .complete number title message created_at author_name author_email msha =>
        match author_email with
        | none => .exc .http404 s1 []
        | some email =>
          if email.length == 0 then .exc .http404 s1 []
          else
            match commitAuthorGetOrCreate s1 orgId email author_name with
            | .error e => .exc e s1 []
            | .ok (a, s2) =>
              .ok (pullRequestCreateOrSave s2 orgId repo.id number title a.id message msha
                    (parse_datetime created_at)) []

/-! ## `GiteaWebhookEndpoint.post` -/

/-- The fixed `_handlers` mapping: `"push" → PushEventWebhook`,
`"pull_request" → PullRequestEventWebhook`. -/
inductive HandlerKind where
  | push
  | pull_request
deriving DecidableEq

def handlersMap (eventType : String) : Option HandlerKind :=
  if eventType == "push" then some .push
  else if eventType == "pull_request" then some .pull_request
  else none

def callHandler (k : HandlerKind) (s : Store) (integration : IntegrationRec) (orgId : Nat)
    (event : Event) : HRes :=
  match k with
  | .push => pushCall s integration orgId event
  | .pull_request => prCall s integration orgId event

/-- `for organization in integration.organizations.all(): handler()(…)` —
one handler invocation per organization, in order; an exception aborts the
loop and propagates with the store as mutated so far. -/
def runOrgs (k : HandlerKind) (integration : IntegrationRec) (event : Event) :
    List Nat → Store → HRes
  | [], s => .ok s []
  | orgId :: rest, s =>
    match callHandler k s integration orgId event with
    | .ok s1 logs1 =>
      match runOrgs k integration event rest s1 with
      | .ok s2 logs2 => .ok s2 (logs1 ++ logs2)
      | .exc e s2 logs2 => .exc e s2 (logs1 ++ logs2)
    | .exc e s1 logs1 => .exc e s1 logs1

/-- `str.split` on a single-character separator, over the character list
(structural, so it evaluates in the kernel). -/
def splitOnChar (c : Char) : List Char → List (List Char)
  | [] => [[]]
  | x :: rest =>
    match splitOnChar c rest, x == c with
    | r, true => [] :: r
    | [], false => [[x]]
    | hd :: tl, false => (x :: hd) :: tl

/-- `external_id, webhook_secret = event["secret"].split("#")`: Python
unpacking succeeds exactly when the split yields two parts. -/
def splitSecret (secret : String) : Option (String × String) :=
  match (splitOnChar '#' secret.data).map String.mk with
  | [a, b] => some (a, b)
  | _ => none

/-- One inbound webhook POST.  `body` is the raw request body;
`parsed` is the result of `json.loads(request.body.decode("utf-8"))`,
with `none` standing for a `JSONDecodeError`.  The two `META` headers are
optional. -/
structure Request where
  http_x_gitea_signature : Option String
  http_x_gitea_event : Option String
  body : List Nat
  parsed : Option Event
deriving DecidableEq

/-- Outcome of one delivery: an HTTP response status (`Http404` raised by a
handler renders as status 404), or an exception the view never catches
(rendered as a server error by the host, status 500). -/
inductive PostResult where
  | response (status : Nat)
  | uncaught (e : Exc)
deriving DecidableEq

structure PostOut where
  result : PostResult
  logs : List String
  state : Store
deriving DecidableEq

/-- `GiteaWebhookEndpoint.post`, in source order: signature header presence,
JSON parse, secret split, signature verification (HMAC keyed by the *full*
composite secret), installation lookup, stored-secret comparison, event
dispatch, then per-organization fan-out.  When the event-type header is
absent, the `except KeyError` branch re-reads the missing header while
building the `missing-event` log record, raising a fresh uncaught
`KeyError` before the log is emitted. -/
def post (r : Request) (s : Store) : PostOut :=
  match r.http_x_gitea_signature with
  | none => ⟨.response 400, ["gitea.webhook.no-signature"], s⟩
  | some signature =>
    match r.parsed with
    | none => ⟨.response 400, ["gitea.webhook.invalid-json"], s⟩
    | some event =>
      match event.secret with
      | none => ⟨.response 400, ["gitea.webhook.invalid-secret"], s⟩
      | some secret =>
        match splitSecret secret with
        | none => ⟨.response 400, ["gitea.webhook.invalid-secret"], s⟩
        | some (external_id, webhook_secret) =>
          if check_signature r.body secret signature then
            match integrationQuery s "gitea" external_id with
            | [] => ⟨.response 400, ["gitea.webhook.invalid-organization"], s⟩
            | _ :: _ :: _ => ⟨.uncaught .multipleObjectsReturned, [], s⟩
            | [integration] =>
              if constant_time_compare webhook_secret integration.metadata.webhook_secret then
                match r.http_x_gitea_event with
                | none => ⟨.uncaught (.keyError "HTTP_X_GITEA_EVENT"), [], s⟩
                | some eventType =>
                  match handlersMap eventType with
                  | none => ⟨.response 400, ["gitea.webhook.missing-event"], s⟩
                  | some k =>
                    match runOrgs k integration event integration.organizations s with
                    | .ok s1 logs => ⟨.response 204, logs, s1⟩
                    | .exc .http404 s1 logs => ⟨.response 404, logs, s1⟩
                    | .exc e s1 logs => ⟨.uncaught e, logs, s1⟩
              else
                ⟨.response 400, ["gitea.webhook.invalid-token-secret"], s⟩
          else
            ⟨.response 400, ["gitea.webhook.invalid-signature"], s⟩

/-! ## Store evolution

Infrastructure describing how one delivery grows the store, used to prove
idempotency of push ingestion. -/

/-- Number of CommitAuthor rows for one (organization, email). -/
def authorCount (s : Store) (orgId : Nat) (email : String) : Nat :=
  (authorQuery s orgId email).length

/-- Number of Commit rows for one (repository, key). -/
def commitCount (s : Store) (rid : Nat) (key : String) : Nat :=
  (s.commits.filter (fun c => c.repository_id == rid && c.key == key)).length

/-- Identity-relevant repository columns never change. -/
def RepoKey (a b : RepositoryRec) : Prop :=
  a.id = b.id ∧ a.organization_id = b.organization_id ∧
    a.provider = b.provider ∧ a.external_id = b.external_id

/-- How push processing can evolve the store: installations untouched,
repository rows keep their identity columns, author and commit rows are
never removed, an (organization, email) author that exists is never
duplicated, and a (repository, key) commit is never inserted twice. -/
structure StoreExtends (s t : Store) : Prop where
  integ : t.integrations = s.integrations
  repos : List.Forall₂ RepoKey s.repositories t.repositories
  authors_mem : ∀ a ∈ s.commit_authors, a ∈ t.commit_authors
  authors_count : ∀ oid e, 1 ≤ authorCount s oid e → authorCount t oid e = authorCount s oid e
  commits_mem : ∀ c ∈ s.commits, c ∈ t.commits
  commit_bound : ∀ rid k, commitCount t rid k ≤ max (commitCount s rid k) 1

theorem repoKey_refl (a : RepositoryRec) : RepoKey a a := ⟨rfl, rfl, rfl, rfl⟩

theorem repoKey_trans {a b c : RepositoryRec} (h1 : RepoKey a b) (h2 : RepoKey b c) :
    RepoKey a c :=
  ⟨h1.1.trans h2.1, h1.2.1.trans h2.2.1, h1.2.2.1.trans h2.2.2.1, h1.2.2.2.trans h2.2.2.2⟩

theorem storeExtends_refl (s : Store) : StoreExtends s s where
  integ := rfl
  repos := List.forall₂_same.mpr (fun a _ => repoKey_refl a)
  authors_mem := fun _ h => h
  authors_count := fun _ _ _ => rfl
  commits_mem := fun _ h => h
  commit_bound := fun _ _ => Nat.le_max_left _ _

theorem forall₂_repoKey_trans : ∀ {l1 l2 l3 : List RepositoryRec},
    List.Forall₂ RepoKey l1 l2 → List.Forall₂ RepoKey l2 l3 → List.Forall₂ RepoKey l1 l3 := by
  intro l1 l2 l3 h1 h2
  induction h1 generalizing l3 with
  | nil => cases h2; exact .nil
  | cons hab htl ih =>
    cases h2 with
    | cons hbc htl2 => exact .cons (repoKey_trans hab hbc) (ih htl2)

theorem storeExtends_trans {s t u : Store} (h1 : StoreExtends s t) (h2 : StoreExtends t u) :
    StoreExtends s u where
  integ := h2.integ.trans h1.integ
  repos := forall₂_repoKey_trans h1.repos h2.repos
  authors_mem := fun a ha => h2.authors_mem a (h1.authors_mem a ha)
  authors_count := fun oid e h => by
    rw [h2.authors_count oid e (by rw [h1.authors_count oid e h]; exact h),
        h1.authors_count oid e h]
  commits_mem := fun c hc => h2.commits_mem c (h1.commits_mem c hc)
  commit_bound := fun rid k => by
    have := h2.commit_bound rid k
    have h1b := h1.commit_bound rid k
    omega

/-- An existing commit row persists through an extension. -/
theorem StoreExtends.commitExists_mono {s t : Store} (h : StoreExtends s t) {rid : Nat}
    {k : String} (he : commitExists s rid k = true) : commitExists t rid k = true := by
  rcases List.any_eq_true.mp he with ⟨c, hc, hp⟩
  exact List.any_eq_true.mpr ⟨c, h.commits_mem c hc, hp⟩

/-- The store carried by a commit-loop outcome. -/
def stepStore : Except (Exc × Store) (List (String × Nat) × Store) → Store
  | .error (_, s) => s
  | .ok (_, s) => s

/-- The store carried by a commit-processing outcome. -/
def runStore : Except (Exc × Store) Store → Store
  | .error (_, s) => s
  | .ok s => s

theorem filter_map_of_pred_inv {α : Type} (f : α → α) (p : α → Bool) (l : List α)
    (hinv : ∀ r, p (f r) = p r) :
    List.filter p (List.map f l) = List.map f (List.filter p l) := by
  induction l with
  | nil => rfl
  | cons hd tl ih =>
    by_cases h : p hd = true
    · simp [List.filter_cons, hinv, h, ih]
    · simp only [Bool.not_eq_true] at h
      simp [List.filter_cons, hinv, h, ih]

theorem bool_and_split {a b : Bool} (h : (a && b) = true) : a = true ∧ b = true := by
  cases a <;> cases b <;> simp_all

theorem map_pointwise_of_eq_self {α : Type} {f : α → α} :
    ∀ {l : List α}, l.map f = l → ∀ x ∈ l, f x = x := by
  intro l
  induction l with
  | nil => intro _ x hx; cases hx
  | cons hd tl ih =>
    intro h x hx
    rw [List.map_cons, List.cons.injEq] at h
    rcases List.mem_cons.mp hx with hx | hx
    · rw [hx]; exact h.1
    · exact ih h.2 x hx

theorem map_eq_self_of_pointwise {α : Type} {f : α → α} :
    ∀ {l : List α}, (∀ x ∈ l, f x = x) → l.map f = l := by
  intro l
  induction l with
  | nil => intro _; rfl
  | cons hd tl ih =>
    intro h
    rw [List.map_cons, h hd (by simp), ih (fun x hx => h x (by simp [hx]))]

theorem filter_singleton_of_mem {α : Type} {p : α → Bool} {l : List α} {a : α}
    (hlen : (l.filter p).length = 1) (ha : a ∈ l.filter p) : l.filter p = [a] := by
  rcases hl : l.filter p with _ | ⟨x, xs⟩
  · rw [hl] at ha; cases ha
  · rw [hl] at hlen ha
    rcases xs with _ | _
    · rw [List.mem_singleton.mp ha]
    · simp at hlen

/-- `configInsert` is idempotent. -/
theorem configInsert_idem (c : List (String × String)) (k v : String) :
    configInsert (configInsert c k v) k v = configInsert c k v := by
  induction c with
  | nil => simp [configInsert]
  | cons hd tl ih =>
    by_cases h : hd.1 == k
    · simp [configInsert, h]
    · simp only [Bool.not_eq_true] at h
      simp [configInsert, h, ih]

theorem commitCreateOrIgnore_extends (s : Store) (c : CommitRec) :
    StoreExtends s (commitCreateOrIgnore s c) := by
  unfold commitCreateOrIgnore
  by_cases h : commitExists s c.repository_id c.key = true
  · rw [if_pos h]; exact storeExtends_refl s
  · rw [if_neg h]
    refine ⟨rfl, List.forall₂_same.mpr (fun a _ => repoKey_refl a), ?_, fun _ _ _ => rfl,
      ?_, ?_⟩
    · intro a ha; exact ha
    · intro cc hc; exact List.mem_append.mpr (Or.inl hc)
    · intro rid k
      simp only [Bool.not_eq_true] at h
      unfold commitCount
      rw [List.filter_append, List.length_append]
      by_cases hp : (c.repository_id == rid && c.key == k) = true
      · have hrid : c.repository_id = rid := eq_of_beq (bool_and_split hp).1
        have hk : c.key = k := eq_of_beq (bool_and_split hp).2
        have hzero : (s.commits.filter
            (fun cc => cc.repository_id == rid && cc.key == k)).length = 0 := by
          rw [List.length_eq_zero, List.filter_eq_nil_iff]
          intro cc hcc hpc
          have : commitExists s c.repository_id c.key = true := by
            refine List.any_eq_true.mpr ⟨cc, hcc, ?_⟩
            rw [hrid, hk]; exact hpc
          rw [h] at this; cases this
        rw [hzero]
        simp [List.filter_cons, hp]
      · simp only [Bool.not_eq_true] at hp
        have : (List.filter (fun cc => cc.repository_id == rid && cc.key == k) [c]).length = 0 := by
          simp [List.filter_cons, hp]
        rw [this]
        have := Nat.le_max_left (commitCount s rid k) 1
        unfold commitCount at this
        omega

theorem commitAuthorGetOrCreate_ok {s s2 : Store} {orgId : Nat} {email nm : String}
    {a : CommitAuthorRec} (h : commitAuthorGetOrCreate s orgId email nm = .ok (a, s2)) :
    StoreExtends s s2 ∧ a ∈ s2.commit_authors ∧ authorCount s2 orgId email = 1 ∧
      s2.repositories = s.repositories ∧ s2.commits = s.commits ∧
      s2.pull_requests = s.pull_requests ∧
      a.organization_id = orgId ∧ a.email = email := by
  unfold commitAuthorGetOrCreate at h
  rcases hq : authorQuery s orgId email with _ | ⟨x, xs⟩
  · rw [hq] at h
    simp only [Except.ok.injEq, Prod.mk.injEq] at h
    rcases h with ⟨ha, hs2⟩
    have hcnt0 : authorCount s orgId email = 0 := by
      unfold authorCount; rw [hq]; rfl
    subst hs2
    constructor
    · refine ⟨rfl, List.forall₂_same.mpr (fun r _ => repoKey_refl r), ?_, ?_, fun _ h => h,
        fun _ _ => Nat.le_max_left _ _⟩
      · intro y hy; exact List.mem_append.mpr (Or.inl hy)
      · intro oid e hcnt
        unfold authorCount authorQuery at hcnt ⊢
        simp only [List.filter_append, List.length_append]
        have hz : (List.filter (fun a => a.organization_id == oid && a.email == e)
            [(⟨s.next_author_id, orgId, email, nm⟩ : CommitAuthorRec)]).length = 0 := by
          by_cases hp : (((⟨s.next_author_id, orgId, email, nm⟩ :
              CommitAuthorRec).organization_id == oid) &&
              ((⟨s.next_author_id, orgId, email, nm⟩ : CommitAuthorRec).email == e)) = true
          · exfalso
            have hoid : orgId = oid := eq_of_beq (bool_and_split hp).1
            have he : email = e := eq_of_beq (bool_and_split hp).2
            subst hoid he
            unfold authorCount authorQuery at hcnt0
            omega
          · simp only [Bool.not_eq_true] at hp
            simp [hp]
        omega
    · refine ⟨?_, ?_, rfl, rfl, rfl, by rw [← ha], by rw [← ha]⟩
      · rw [← ha]; exact List.mem_append.mpr (Or.inr (by simp))
      · unfold authorCount authorQuery
        simp only [List.filter_append, List.length_append]
        have hq0 : (s.commit_authors.filter
            (fun a => a.organization_id == orgId && a.email == email)).length = 0 := by
          unfold authorQuery at hq; rw [hq]; rfl
        simp [hq0]
  · rcases xs with _ | _
    · rw [hq] at h
      simp only [Except.ok.injEq, Prod.mk.injEq] at h
      rcases h with ⟨ha, hs2⟩
      subst hs2
      have hxq : x ∈ authorQuery s orgId email := hq ▸ List.mem_singleton_self x
      have hpred := (List.mem_filter.mp hxq).2
      refine ⟨storeExtends_refl s, ?_, ?_, rfl, rfl, rfl, ?_, ?_⟩
      · rw [← ha]
        exact List.mem_of_mem_filter hxq
      · unfold authorCount; rw [hq]; rfl
      · rw [← ha]; exact eq_of_beq (bool_and_split hpred).1
      · rw [← ha]; exact eq_of_beq (bool_and_split hpred).2
    · rw [hq] at h; cases h

theorem commitCreateOrIgnore_frame (s : Store) (c : CommitRec) :
    (commitCreateOrIgnore s c).repositories = s.repositories ∧
    (commitCreateOrIgnore s c).integrations = s.integrations ∧
    (commitCreateOrIgnore s c).pull_requests = s.pull_requests ∧
    (commitCreateOrIgnore s c).commit_authors = s.commit_authors := by
  unfold commitCreateOrIgnore
  by_cases h : commitExists s c.repository_id c.key = true
  · rw [if_pos h]; exact ⟨rfl, rfl, rfl, rfl⟩
  · rw [if_neg h]; exact ⟨rfl, rfl, rfl, rfl⟩

theorem commitCreateOrIgnore_exists (s : Store) (c : CommitRec) :
    commitExists (commitCreateOrIgnore s c) c.repository_id c.key = true := by
  unfold commitCreateOrIgnore
  by_cases h : commitExists s c.repository_id c.key = true
  · rw [if_pos h]; exact h
  · rw [if_neg h]
    refine List.any_eq_true.mpr ⟨c, List.mem_append.mpr (Or.inr (by simp)), by simp⟩

/-- If the (repository, key) row already exists, the guarded insert is a no-op. -/
theorem commitCreateOrIgnore_noop {s : Store} {c : CommitRec}
    (h : commitExists s c.repository_id c.key = true) : commitCreateOrIgnore s c = s := by
  unfold commitCreateOrIgnore; rw [if_pos h]

theorem commitFinish_frame (c : CommitPayload) (oid rid : Nat) (message : String)
    (author : Option Nat) (A : List (String × Nat)) (s : Store) :
    StoreExtends s (stepStore (commitFinish c oid rid message author A s)) ∧
    (stepStore (commitFinish c oid rid message author A s)).repositories = s.repositories ∧
    (stepStore (commitFinish c oid rid message author A s)).pull_requests = s.pull_requests ∧
    (stepStore (commitFinish c oid rid message author A s)).commit_authors = s.commit_authors := by
  unfold commitFinish
  rcases c.id with _ | cid
  · exact ⟨storeExtends_refl s, rfl, rfl, rfl⟩
  · rcases c.timestamp with _ | ts
    · exact ⟨storeExtends_refl s, rfl, rfl, rfl⟩
    · refine ⟨commitCreateOrIgnore_extends s _, ?_⟩
      have := commitCreateOrIgnore_frame s ⟨rid, oid, cid, message, author, parse_datetime ts⟩
      exact ⟨this.1, this.2.2.1, this.2.2.2⟩

theorem stepCommit_frame (c : CommitPayload) (oid rid : Nat) (A : List (String × Nat))
    (s : Store) :
    StoreExtends s (stepStore (stepCommit c oid rid A s)) ∧
    (stepStore (stepCommit c oid rid A s)).repositories = s.repositories ∧
    (stepStore (stepCommit c oid rid A s)).pull_requests = s.pull_requests := by
  have hfin : ∀ (m : String) (author : Option Nat) (B : List (String × Nat)) (t : Store),
      StoreExtends t (stepStore (commitFinish c oid rid m author B t)) ∧
      (stepStore (commitFinish c oid rid m author B t)).repositories = t.repositories ∧
      (stepStore (commitFinish c oid rid m author B t)).pull_requests = t.pull_requests :=
    fun m a B t => ⟨(commitFinish_frame c oid rid m a B t).1,
      (commitFinish_frame c oid rid m a B t).2.1, (commitFinish_frame c oid rid m a B t).2.2.1⟩
  unfold stepCommit
  split
  · exact ⟨storeExtends_refl s, rfl, rfl⟩
  · split
    · exact ⟨storeExtends_refl s, rfl, rfl⟩
    · split
      · exact ⟨storeExtends_refl s, rfl, rfl⟩
      · split
        · exact ⟨storeExtends_refl s, rfl, rfl⟩
        · split
          · exact hfin _ _ _ _
          · split
            · exact hfin _ _ _ _
            · split
              · exact hfin _ _ _ _
              · split
                · exact ⟨storeExtends_refl s, rfl, rfl⟩
                · split
                  · exact ⟨storeExtends_refl s, rfl, rfl⟩
                  · rename_i a s2 hgc
                    have hg := commitAuthorGetOrCreate_ok hgc
                    exact ⟨storeExtends_trans hg.1 (hfin _ _ _ _).1, (hfin _ _ _ _).2.1.trans hg.2.2.2.1,
                      (hfin _ _ _ _).2.2.trans hg.2.2.2.2.2.1⟩

theorem processCommits_frame (oid rid : Nat) :
    ∀ (cs : List CommitPayload) (A : List (String × Nat)) (s : Store),
    StoreExtends s (runStore (processCommits oid rid cs A s)) ∧
    (runStore (processCommits oid rid cs A s)).repositories = s.repositories ∧
    (runStore (processCommits oid rid cs A s)).pull_requests = s.pull_requests := by
  intro cs
  induction cs with
  | nil => intro A s; exact ⟨storeExtends_refl s, rfl, rfl⟩
  | cons c rest ih =>
    intro A s
    rcases hstep : stepCommit c oid rid A s with ⟨e, s1⟩ | ⟨A1, s1⟩
    · have hfr := stepCommit_frame c oid rid A s
      rw [hstep] at hfr
      simp only [processCommits, hstep]
      exact ⟨hfr.1, hfr.2.1, hfr.2.2⟩
    · have hst := stepCommit_frame c oid rid A s
      rw [hstep] at hst
      have hrest := ih A1 s1
      simp only [processCommits, hstep]
      exact ⟨storeExtends_trans hst.1 hrest.1, hrest.2.1.trans hst.2.1, hrest.2.2.trans hst.2.2⟩

/-- Replaying a successful Commit insert against any extension of its result
is a no-op: the row is already there, so the duplicate insert is swallowed. -/
theorem commitFinish_replay {c : CommitPayload} {oid rid : Nat} {message : String}
    {author author' : Option Nat} {A A' : List (String × Nat)} {s s1 t : Store}
    (h : commitFinish c oid rid message author A s = .ok (A', s1))
    (hext : StoreExtends s1 t) :
    commitFinish c oid rid message author' A t = .ok (A', t) := by
  unfold commitFinish at h ⊢
  rcases hid : c.id with _ | cid
  · simp only [hid] at h; cases h
  · simp only [hid] at h ⊢
    rcases hts : c.timestamp with _ | ts
    · simp only [hts] at h; cases h
    · simp only [hts] at h ⊢
      simp only [Except.ok.injEq, Prod.mk.injEq] at h
      rcases h with ⟨hA, hs1⟩
      have hex1 : commitExists s1 rid cid = true := by
        rw [← hs1]
        exact commitCreateOrIgnore_exists s ⟨rid, oid, cid, message, author, parse_datetime ts⟩
      have hext2 : commitExists t rid cid = true := hext.commitExists_mono hex1
      rw [commitCreateOrIgnore_noop (c := ⟨rid, oid, cid, message, author', parse_datetime ts⟩) hext2,
        hA]

/-- The author rows the loop body relies on persist: replaying one loop
iteration against any extension of a completed run's state is a no-op that
rebuilds the same author cache. -/
theorem stepCommit_replay {c : CommitPayload} {oid rid : Nat} {A A' : List (String × Nat)}
    {s s1 t : Store} (h : stepCommit c oid rid A s = .ok (A', s1))
    (hext : StoreExtends s1 t) :
    stepCommit c oid rid A t = .ok (A', t) := by
  unfold stepCommit at h ⊢
  rcases hm : c.message with _ | message
  · simp only [hm] at h; cases h
  · simp only [hm] at h ⊢
    by_cases hig : should_ignore_commit message = true
    · rw [if_pos hig] at h ⊢
      simp only [Except.ok.injEq, Prod.mk.injEq] at h
      rw [h.1]
    · rw [if_neg hig] at h ⊢
      rcases hau : c.author with _ | ap
      · simp only [hau] at h; cases h
      · simp only [hau] at h ⊢
        rcases hem : ap.email with _ | (_ | author_email)
        · simp only [hem] at h; cases h
        · simp only [hem] at h ⊢
          exact commitFinish_replay h hext
        · simp only [hem] at h ⊢
          by_cases hlen : 75 < author_email.length
          · rw [if_pos hlen] at h ⊢
            exact commitFinish_replay h hext
          · rw [if_neg hlen] at h ⊢
            rcases hfa : A.filter (fun p => p.1 == author_email) with _ | ⟨⟨e0, aid⟩, rest0⟩
            · simp only [hfa] at h ⊢
              rcases hnm : ap.name with _ | nm
              · simp only [hnm] at h; cases h
              · simp only [hnm] at h ⊢
                rcases hgc : commitAuthorGetOrCreate s oid author_email nm with e2 | ⟨a, s2⟩
                · simp only [hgc] at h; cases h
                · simp only [hgc] at h
                  have hg := commitAuthorGetOrCreate_ok hgc
                  have hfr := commitFinish_frame c oid rid message (some a.id)
                    (A ++ [(author_email, a.id)]) s2
                  have hs1authors : s1.commit_authors = s2.commit_authors := by
                    have h2 := hfr.2.2.2
                    rw [show stepStore (commitFinish c oid rid message (some a.id)
                      (A ++ [(author_email, a.id)]) s2) = s1 from by rw [h]; rfl] at h2
                    exact h2
                  have hmem_t : a ∈ t.commit_authors := by
                    refine hext.authors_mem a ?_
                    rw [hs1authors]; exact hg.2.1
                  have hcnt1 : authorCount s1 oid author_email = 1 := by
                    unfold authorCount authorQuery
                    rw [hs1authors]
                    exact hg.2.2.1
                  have hcnt_t : authorCount t oid author_email = 1 := by
                    rw [hext.authors_count oid author_email (by omega)]
                    exact hcnt1
                  have hpred : (a.organization_id == oid && a.email == author_email) = true := by
                    rw [hg.2.2.2.2.2.2.1, hg.2.2.2.2.2.2.2]
                    simp
                  have haq : authorQuery t oid author_email = [a] :=
                    filter_singleton_of_mem hcnt_t
                      (List.mem_filter.mpr ⟨hmem_t, hpred⟩)
                  have hgc_t : commitAuthorGetOrCreate t oid author_email nm = .ok (a, t) := by
                    unfold commitAuthorGetOrCreate
                    rw [haq]
                  simp only [hgc_t]
                  exact commitFinish_replay h hext
            · simp only [hfa] at h ⊢
              exact commitFinish_replay h hext

/-- Replaying the whole commit loop against any extension of a completed
run's state is a no-op. -/
theorem processCommits_replay {oid rid : Nat} :
    ∀ {cs : List CommitPayload} {A : List (String × Nat)} {s s' t : Store},
    processCommits oid rid cs A s = .ok s' → StoreExtends s' t →
    processCommits oid rid cs A t = .ok t := by
  intro cs
  induction cs with
  | nil => intro A s s' t _ _; rfl
  | cons c rest ih =>
    intro A s s' t h hext
    rcases hstep : stepCommit c oid rid A s with ⟨e, s1⟩ | ⟨A1, s1⟩
    · simp only [processCommits, hstep] at h; cases h
    · simp only [processCommits, hstep] at h
      have hext1 : StoreExtends s1 s' := by
        have h2 := (processCommits_frame oid rid rest A1 s1).1
        rw [h] at h2
        exact h2
      have hrep := stepCommit_replay hstep (storeExtends_trans hext1 hext)
      simp only [processCommits, hrep]
      exact ih h hext

/-! ## Inversion and replay for the push handler -/

theorem updFn_id (repo : RepositoryRec) (fn u : String) (r : RepositoryRec) :
    (updFn repo fn u r).id = r.id := by
  unfold updFn
  by_cases h : (r.id == repo.id) = true
  · rw [if_pos h]
  · rw [if_neg h]

theorem updFn_key (repo : RepositoryRec) (fn u : String) (r : RepositoryRec) :
    RepoKey r (updFn repo fn u r) := by
  unfold updFn
  by_cases h : (r.id == repo.id) = true
  · rw [if_pos h]; exact ⟨rfl, rfl, rfl, rfl⟩
  · rw [if_neg h]; exact repoKey_refl r

theorem updFn_pred_inv (repo : RepositoryRec) (fn u : String) (oid : Nat) (ext : String)
    (r : RepositoryRec) :
    (((updFn repo fn u r).organization_id == oid) && ((updFn repo fn u r).provider == PROVIDER_NAME)
      && ((updFn repo fn u r).external_id == ext)) =
    ((r.organization_id == oid) && (r.provider == PROVIDER_NAME) && (r.external_id == ext)) := by
  unfold updFn
  by_cases h : (r.id == repo.id) = true
  · rw [if_pos h]
  · rw [if_neg h]

theorem repoQuery_congr {s t : Store} (h : s.repositories = t.repositories) (oid : Nat)
    (ext : String) : repoQuery s oid ext = repoQuery t oid ext := by
  unfold repoQuery; rw [h]

theorem get_repo_inv_some {s : Store} {i : IntegrationRec} {oid : Nat} {ev : Event}
    {r : RepositoryRec} (h : get_repo s i oid ev = .ok (some r)) :
    ∃ er fn, ev.repository = some er ∧ er.full_name = some fn ∧
      repoQuery s oid (i.metadata.instanceName ++ ":" ++ fn) = [r] := by
  unfold get_repo at h
  rcases hrep : ev.repository with _ | er
  · rw [hrep] at h; cases h
  · rw [hrep] at h
    rcases hfn : er.full_name with _ | fn
    · simp only [hfn] at h; cases h
    · simp only [hfn] at h
      rcases hq : repoQuery s oid (i.metadata.instanceName ++ ":" ++ fn) with _ | ⟨x, xs⟩
      · rw [hq] at h; cases h
      · rcases xs with _ | _
        · rw [hq] at h
          simp only [Except.ok.injEq, Option.some.injEq] at h
          exact ⟨er, fn, rfl, hfn, by rw [hq, h]⟩
        · rw [hq] at h; cases h

theorem get_repo_inv_none {s : Store} {i : IntegrationRec} {oid : Nat} {ev : Event}
    (h : get_repo s i oid ev = .ok none) :
    ∃ er fn, ev.repository = some er ∧ er.full_name = some fn ∧
      repoQuery s oid (i.metadata.instanceName ++ ":" ++ fn) = [] := by
  unfold get_repo at h
  rcases hrep : ev.repository with _ | er
  · rw [hrep] at h; cases h
  · rw [hrep] at h
    rcases hfn : er.full_name with _ | fn
    · simp only [hfn] at h; cases h
    · simp only [hfn] at h
      rcases hq : repoQuery s oid (i.metadata.instanceName ++ ":" ++ fn) with _ | ⟨x, xs⟩
      · exact ⟨er, fn, rfl, hfn, hq⟩
      · rcases xs with _ | _
        · rw [hq] at h; cases h
        · rw [hq] at h; cases h

theorem update_repo_data_ok_inv {s s1 : Store} {repo : RepositoryRec} {ev : Event}
    (h : update_repo_data s repo ev = .ok s1) :
    ∃ er fn u, ev.repository = some er ∧ er.full_name = some fn ∧ er.html_url = some u ∧
      ((s1 = s ∧ repo.name = fn ∧ repo.url = u ∧ lookupConfig repo.config "repo" = some fn) ∨
       s1 = { s with repositories := s.repositories.map (updFn repo fn u) }) := by
  unfold update_repo_data at h
  rcases hrep : ev.repository with _ | er
  · rw [hrep] at h; cases h
  · rw [hrep] at h
    rcases hfn : er.full_name with _ | fn
    · simp only [hfn] at h; cases h
    · rcases hu : er.html_url with _ | u
      · simp only [hfn, hu] at h; cases h
      · simp only [hfn, hu] at h
        by_cases hc : (repo.name != fn || repo.url != u ||
            lookupConfig repo.config "repo" != some fn) = true
        · rw [if_pos hc] at h
          simp only [Except.ok.injEq] at h
          exact ⟨er, fn, u, rfl, hfn, hu, Or.inr h.symm⟩
        · rw [if_neg hc] at h
          simp only [Except.ok.injEq] at h
          simp only [Bool.or_eq_true, not_or, bne_iff_ne, ne_eq, not_not,
            Bool.not_eq_true] at hc
          refine ⟨er, fn, u, rfl, hfn, hu, Or.inl ⟨h.symm, hc.1.1, hc.1.2, ?_⟩⟩
          have := hc.2
          simpa using this

/-- `update_repo_data` only rewrites repository rows. -/
theorem update_repo_data_frame {s s1 : Store} {repo : RepositoryRec} {ev : Event}
    (h : update_repo_data s repo ev = .ok s1) :
    s1.integrations = s.integrations ∧ s1.commit_authors = s.commit_authors ∧
    s1.commits = s.commits ∧ s1.pull_requests = s.pull_requests ∧
    s1.next_author_id = s.next_author_id ∧
    List.Forall₂ RepoKey s.repositories s1.repositories := by
  rcases update_repo_data_ok_inv h with ⟨er, fn, u, _, _, _, hcase | hcase⟩
  · rw [hcase.1]
    exact ⟨rfl, rfl, rfl, rfl, rfl, List.forall₂_same.mpr (fun r _ => repoKey_refl r)⟩
  · subst hcase
    refine ⟨rfl, rfl, rfl, rfl, rfl, ?_⟩
    have : ∀ (R : List RepositoryRec), List.Forall₂ RepoKey R (R.map (updFn repo fn u)) := by
      intro R
      induction R with
      | nil => exact .nil
      | cons hd tl ih => exact .cons (updFn_key repo fn u hd) ih
    exact this s.repositories

theorem update_repo_data_extends {s s1 : Store} {repo : RepositoryRec} {ev : Event}
    (h : update_repo_data s repo ev = .ok s1) : StoreExtends s s1 := by
  obtain ⟨hint, hca, hcm, hpr, _, hrepos⟩ := update_repo_data_frame h
  refine ⟨hint, hrepos, ?_, ?_, ?_, ?_⟩
  · intro a ha; rw [hca]; exact ha
  · intro oid e _; unfold authorCount authorQuery; rw [hca]
  · intro c hc; rw [hcm]; exact hc
  · intro rid k; unfold commitCount; rw [hcm]; exact Nat.le_max_left _ _

theorem pushCall_ok_inv {s s' : Store} {i : IntegrationRec} {o : Nat} {ev : Event}
    {logs : List String} (h : pushCall s i o ev = .ok s' logs) :
    logs = [] ∧
    ((get_repo s i o ev = .ok none ∧ s' = s) ∨
     (∃ repo s1, get_repo s i o ev = .ok (some repo) ∧ update_repo_data s repo ev = .ok s1 ∧
        processCommits o repo.id (ev.commits.getD []) [] s1 = .ok s')) := by
  unfold pushCall at h
  rcases hgr : get_repo s i o ev with ⟨e, lg⟩ | orep
  · simp only [hgr] at h; cases h
  · rcases orep with _ | repo
    · simp only [hgr] at h
      rcases h with ⟨rfl, rfl⟩
      exact ⟨rfl, Or.inl ⟨rfl, rfl⟩⟩
    · simp only [hgr] at h
      rcases hup : update_repo_data s repo ev with e | s1
      · simp only [hup] at h; cases h
      · simp only [hup] at h
        rcases hpc : processCommits o repo.id (ev.commits.getD []) [] s1 with ⟨e, s2⟩ | s2
        · simp only [hpc] at h; cases h
        · simp only [hpc] at h
          rcases h with ⟨rfl, rfl⟩
          exact ⟨rfl, Or.inr ⟨repo, s1, rfl, hup, hpc⟩⟩

theorem pushCall_extends {s s' : Store} {i : IntegrationRec} {o : Nat} {ev : Event}
    {logs : List String} (h : pushCall s i o ev = .ok s' logs) :
    StoreExtends s s' ∧ s'.pull_requests = s.pull_requests := by
  obtain ⟨-, hcase⟩ := pushCall_ok_inv h
  rcases hcase with ⟨-, rfl⟩ | ⟨repo, s1, hgr, hup, hpc⟩
  · exact ⟨storeExtends_refl s', rfl⟩
  · have hu := update_repo_data_extends hup
    have hufr := update_repo_data_frame hup
    have hpf := processCommits_frame o repo.id (ev.commits.getD []) [] s1
    rw [hpc] at hpf
    exact ⟨storeExtends_trans hu hpf.1, hpf.2.2.trans hufr.2.2.2.1⟩

/-- Repository primary keys are pairwise distinct (true of any real store). -/
def RepoIdsNodup (s : Store) : Prop :=
  s.repositories.Pairwise (fun a b => a.id ≠ b.id)

theorem forall₂_mem_right {l l' : List RepositoryRec} (hf : List.Forall₂ RepoKey l l')
    {b : RepositoryRec} (hb : b ∈ l') : ∃ a ∈ l, RepoKey a b := by
  induction hf with
  | nil => cases hb
  | cons hab htl ih =>
    rcases List.mem_cons.mp hb with rfl | hb2
    · exact ⟨_, by simp, hab⟩
    · obtain ⟨a2, ha2, hk⟩ := ih hb2
      exact ⟨a2, by simp [ha2], hk⟩

theorem RepoIdsNodup.of_forall₂ {l l' : List RepositoryRec}
    (hf : List.Forall₂ RepoKey l l') (h : l.Pairwise (fun a b => a.id ≠ b.id)) :
    l'.Pairwise (fun a b => a.id ≠ b.id) := by
  induction hf with
  | nil => exact .nil
  | cons hab htl ih =>
    rcases h with _ | ⟨hhd, htl2⟩
    refine .cons ?_ (ih htl2)
    intro b' hb'
    obtain ⟨a', ha', hk⟩ := forall₂_mem_right htl hb'
    rw [← hab.1, ← hk.1]
    exact hhd a' ha'

theorem RepoIdsNodup.preserve {s t : Store} (h : StoreExtends s t) (hn : RepoIdsNodup s) :
    RepoIdsNodup t :=
  RepoIdsNodup.of_forall₂ h.repos hn

theorem updFn_compose_self (repo : RepositoryRec) (fn u : String) (x : RepositoryRec) :
    updFn (updFn repo fn u repo) fn u (updFn repo fn u x) = updFn repo fn u x := by
  unfold updFn
  by_cases hx : (x.id == repo.id) = true
  · simp [hx, configInsert_idem]
  · simp [hx]

/-- A second `repo.update(...)` of rows already carrying the event's values
rewrites them to themselves. -/
theorem update_repo_data_settled {s' s : Store} {repo : RepositoryRec} {ev : Event}
    {er : RepoPayload} {fn u : String}
    (hevr : ev.repository = some er) (hfn : er.full_name = some fn) (hu : er.html_url = some u)
    (hrepos : s'.repositories = s.repositories.map (updFn repo fn u)) :
    update_repo_data s' (updFn repo fn u repo) ev = .ok s' := by
  unfold update_repo_data
  simp only [hevr, hfn, hu]
  have hname : (updFn repo fn u repo).name = fn := by simp [updFn]
  have hurl : (updFn repo fn u repo).url = u := by simp [updFn]
  have hmapid : s'.repositories.map (updFn (updFn repo fn u repo) fn u) = s'.repositories := by
    rw [hrepos]
    apply map_eq_self_of_pointwise
    intro y hy
    obtain ⟨x, hx, rfl⟩ := List.mem_map.mp hy
    exact updFn_compose_self repo fn u x
  by_cases hc : (lookupConfig (updFn repo fn u repo).config "repo" != some fn) = true
  · rw [if_pos (by simp [hname, hurl, hc])]
    rw [hmapid]
  · rw [if_neg (by simp [hname, hurl]; simpa using hc)]

/-- When the stored row already matches the event, `update_repo_data`
does not write. -/
theorem update_repo_data_noop {t : Store} {repo : RepositoryRec} {ev : Event}
    {er : RepoPayload} {fn u : String}
    (hevr : ev.repository = some er) (hfn : er.full_name = some fn) (hu : er.html_url = some u)
    (h1 : repo.name = fn) (h2 : repo.url = u)
    (h3 : lookupConfig repo.config "repo" = some fn) :
    update_repo_data t repo ev = .ok t := by
  unfold update_repo_data
  simp [hevr, hfn, hu, h1, h2, h3]

theorem repoQuery_after_update {s' s : Store} {repo : RepositoryRec} {fn u : String}
    {o : Nat} {ext : String}
    (hrepos : s'.repositories = s.repositories.map (updFn repo fn u))
    (hq : repoQuery s o ext = [repo]) :
    repoQuery s' o ext = [updFn repo fn u repo] := by
  unfold repoQuery at hq ⊢
  rw [hrepos, filter_map_of_pred_inv _ _ _ (fun r => updFn_pred_inv repo fn u o ext r), hq,
    List.map_singleton]

/-- Running the push handler again on its own result (or on that result as
left by later same-event processing of the store's repositories) is a
no-op that succeeds. -/
theorem pushCall_self {s s' : Store} {i : IntegrationRec} {o : Nat} {ev : Event}
    {logs : List String} (h : pushCall s i o ev = .ok s' logs) :
    pushCall s' i o ev = .ok s' [] := by
  obtain ⟨hlogs, hcase⟩ := pushCall_ok_inv h
  rcases hcase with ⟨hgr, rfl⟩ | ⟨repo, s1, hgr, hup, hpc⟩
  · unfold pushCall
    simp only [hgr]
  · obtain ⟨er, fn, hevr, hfn, hq⟩ := get_repo_inv_some hgr
    obtain ⟨er2, fn2, u2, hevr2, hfn2, hu2, hupd⟩ := update_repo_data_ok_inv hup
    have her : er2 = er := by
      rw [hevr] at hevr2; exact (Option.some.inj hevr2).symm
    rw [her] at hfn2 hu2
    have hfneq : fn2 = fn := by
      rw [hfn] at hfn2; exact (Option.some.inj hfn2).symm
    rw [hfneq] at hupd
    have hrepos1 : s'.repositories = s1.repositories := by
      have hpf := processCommits_frame o repo.id (ev.commits.getD []) [] s1
      rw [hpc] at hpf
      exact hpf.2.1
    rcases hupd with ⟨hs1, hnm, hurl, hcfg⟩ | hs1
    · subst hs1
      have hq' : repoQuery s' o (i.metadata.instanceName ++ ":" ++ fn) = [repo] := by
        rw [repoQuery_congr hrepos1]; exact hq
      have hgr' : get_repo s' i o ev = .ok (some repo) := by
        unfold get_repo
        simp only [hevr, hfn, hq']
      have hup' : update_repo_data s' repo ev = .ok s' :=
        update_repo_data_noop hevr hfn hu2 hnm hurl hcfg
      have hpc' : processCommits o repo.id (ev.commits.getD []) [] s' = .ok s' :=
        processCommits_replay hpc (storeExtends_refl s')
      unfold pushCall
      simp only [hgr', hup', hpc']
    · have hrepos : s'.repositories = s.repositories.map (updFn repo fn u2) := by
        rw [hrepos1, hs1]
      have hq' : repoQuery s' o (i.metadata.instanceName ++ ":" ++ fn) =
          [updFn repo fn u2 repo] := repoQuery_after_update hrepos hq
      have hgr' : get_repo s' i o ev = .ok (some (updFn repo fn u2 repo)) := by
        unfold get_repo
        simp only [hevr, hfn, hq']
      have hup' : update_repo_data s' (updFn repo fn u2 repo) ev = .ok s' :=
        update_repo_data_settled hevr hfn hu2 hrepos
      have hidrw : (updFn repo fn u2 repo).id = repo.id := updFn_id repo fn u2 repo
      have hpc' : processCommits o (updFn repo fn u2 repo).id (ev.commits.getD []) [] s' =
          .ok s' := by
        rw [hidrw]
        exact processCommits_replay hpc (storeExtends_refl s')
      unfold pushCall
      simp only [hgr', hup', hpc']

theorem store_fields_ext {a b : Store} (h1 : a.integrations = b.integrations)
    (h2 : a.repositories = b.repositories) (h3 : a.commit_authors = b.commit_authors)
    (h4 : a.commits = b.commits) (h5 : a.pull_requests = b.pull_requests)
    (h6 : a.next_author_id = b.next_author_id) : a = b := by
  cases a; cases b; simp_all

theorem updFn_noop_of_ne {repo : RepositoryRec} {fn u : String} {r : RepositoryRec}
    (h : r.id ≠ repo.id) : updFn repo fn u r = r := by
  unfold updFn
  rw [if_neg (by simpa using h)]

theorem update_repo_data_of_pointwise_id {t : Store} {rt : RepositoryRec} {ev : Event}
    {er : RepoPayload} {fn u : String}
    (hevr : ev.repository = some er) (hfn : er.full_name = some fn) (hu : er.html_url = some u)
    (hpt : ∀ r ∈ t.repositories, updFn rt fn u r = r) :
    update_repo_data t rt ev = .ok t := by
  unfold update_repo_data
  simp only [hevr, hfn, hu]
  by_cases hc : (rt.name != fn || rt.url != u || lookupConfig rt.config "repo" != some fn) = true
  · rw [if_pos hc, map_eq_self_of_pointwise hpt]
  · rw [if_neg hc]

theorem repoQuery_mem {s : Store} {o : Nat} {ext : String} {r : RepositoryRec}
    (h : r ∈ repoQuery s o ext) : r ∈ s.repositories ∧ r.organization_id = o := by
  unfold repoQuery at h
  refine ⟨List.mem_of_mem_filter h, ?_⟩
  have hp := (List.mem_filter.mp h).2
  exact eq_of_beq (bool_and_split (bool_and_split hp).1).1

/-- Decomposition of a push-handler invocation that fixed the store. -/
theorem pushCall_fix_inv {t : Store} {i : IntegrationRec} {o : Nat} {ev : Event}
    (hdone : pushCall t i o ev = .ok t []) :
    get_repo t i o ev = .ok none ∨
    (∃ rt, get_repo t i o ev = .ok (some rt) ∧ update_repo_data t rt ev = .ok t ∧
      processCommits o rt.id (ev.commits.getD []) [] t = .ok t) := by
  obtain ⟨-, hcase⟩ := pushCall_ok_inv hdone
  rcases hcase with ⟨hgr, -⟩ | ⟨rt, t1, hgr, hup, hpc⟩
  · exact Or.inl hgr
  · have hufr := update_repo_data_frame hup
    have hpf := processCommits_frame o rt.id (ev.commits.getD []) [] t1
    rw [hpc] at hpf
    have ht1 : t1 = t :=
      store_fields_ext hufr.1 hpf.2.1.symm hufr.2.1 hufr.2.2.1 hufr.2.2.2.1 hufr.2.2.2.2.1
    rw [ht1] at hup hpc
    exact Or.inr ⟨rt, hgr, hup, hpc⟩

/-- A push-handler invocation for a different organization cannot disturb an
organization whose event processing has already settled: the settled
organization's handler remains a successful no-op. -/
theorem pushCall_done_preserved {t t' : Store} {i : IntegrationRec} {o o' : Nat} {ev : Event}
    {logs' : List String} (hnodup : RepoIdsNodup t)
    (hdone : pushCall t i o ev = .ok t [])
    (hother : pushCall t i o' ev = .ok t' logs') :
    pushCall t' i o ev = .ok t' [] := by
  by_cases ho : o' = o
  · rw [ho] at hother
    rw [hdone] at hother
    rcases hother with ⟨rfl, -⟩
    exact hdone
  · have hext : StoreExtends t t' := (pushCall_extends hother).1
    obtain ⟨-, hcase'⟩ := pushCall_ok_inv hother
    rcases hcase' with ⟨hgr', rfl⟩ | ⟨repo', s1', hgr', hup', hpc'⟩
    · exact hdone
    · -- repositories of t' are those of the intermediate update result
      have hrepos' : t'.repositories = s1'.repositories := by
        have hpf := processCommits_frame o' repo'.id (ev.commits.getD []) [] s1'
        rw [hpc'] at hpf
        exact hpf.2.1
      obtain ⟨er', fn', hevr', hfn', hq'⟩ := get_repo_inv_some hgr'
      obtain ⟨er2, fn2, u2, hevr2, hfn2, hu2, hupd'⟩ := update_repo_data_ok_inv hup'
      have her : er2 = er' := by
        rw [hevr'] at hevr2; exact (Option.some.inj hevr2).symm
      rw [her] at hfn2 hu2
      have hfneq : fn2 = fn' := by
        rw [hfn'] at hfn2; exact (Option.some.inj hfn2).symm
      rw [hfneq] at hupd'
      have hro' : repo' ∈ t.repositories ∧ repo'.organization_id = o' :=
        repoQuery_mem (hq' ▸ List.mem_singleton_self repo')
      -- the store after the other organization's run: repositories either
      -- unchanged or rewritten by updFn repo'
      rcases pushCall_fix_inv hdone with hgrn | ⟨rt, hgrt, hupt, hpct⟩
      · -- settled organization has no matching repository
        obtain ⟨er, fn, hevr, hfn, hqn⟩ := get_repo_inv_none hgrn
        have hqn' : repoQuery t' o (i.metadata.instanceName ++ ":" ++ fn) = [] := by
          rcases hupd' with ⟨hs1, -, -, -⟩ | hs1
          · rw [repoQuery_congr (hrepos'.trans (by rw [hs1]))]
            exact hqn
          · unfold repoQuery
            rw [hrepos', hs1]
            show (List.map (updFn repo' fn' u2) t.repositories).filter _ = []
            rw [filter_map_of_pred_inv _ _ _
              (fun r => updFn_pred_inv repo' fn' u2 o (i.metadata.instanceName ++ ":" ++ fn) r)]
            unfold repoQuery at hqn
            rw [hqn]
            rfl
        have hgr2 : get_repo t' i o ev = .ok none := by
          unfold get_repo
          simp only [hevr, hfn, hqn']
        unfold pushCall
        simp only [hgr2]
      · -- settled organization has a matching repository rt
        obtain ⟨er, fn, hevr, hfn, hqt⟩ := get_repo_inv_some hgrt
        have hrt : rt ∈ t.repositories ∧ rt.organization_id = o :=
          repoQuery_mem (hqt ▸ List.mem_singleton_self rt)
        have hne : rt ≠ repo' := by
          intro hcontr
          apply ho
          rw [← hro'.2, ← hcontr, hrt.2]
        have hidne : rt.id ≠ repo'.id :=
          List.Pairwise.forall (R := fun a b : RepositoryRec => a.id ≠ b.id)
            (fun _ _ hab => Ne.symm hab) hnodup hrt.1 hro'.1 hne
        -- the settled repository row is untouched by the other organization's update
        have hqt' : repoQuery t' o (i.metadata.instanceName ++ ":" ++ fn) = [rt] := by
          rcases hupd' with ⟨hs1, -, -, -⟩ | hs1
          · rw [repoQuery_congr (hrepos'.trans (by rw [hs1]))]
            exact hqt
          · unfold repoQuery
            rw [hrepos', hs1]
            show (List.map (updFn repo' fn' u2) t.repositories).filter _ = [rt]
            rw [filter_map_of_pred_inv _ _ _
              (fun r => updFn_pred_inv repo' fn' u2 o (i.metadata.instanceName ++ ":" ++ fn) r)]
            unfold repoQuery at hqt
            rw [hqt, List.map_singleton, updFn_noop_of_ne hidne]
        have hgr2 : get_repo t' i o ev = .ok (some rt) := by
          unfold get_repo
          simp only [hevr, hfn, hqt']
        -- the settled update remains a no-op on the new store
        obtain ⟨er3, fn3, u3, hevr3, hfn3, hu3, hupdt⟩ := update_repo_data_ok_inv hupt
        have hup2 : update_repo_data t' rt ev = .ok t' := by
          rcases hupdt with ⟨-, hnm, hurl, hcfg⟩ | hfix
          · exact update_repo_data_noop hevr3 hfn3 hu3 hnm hurl hcfg
          · have hpt : ∀ r ∈ t.repositories, updFn rt fn3 u3 r = r := by
              apply map_pointwise_of_eq_self
              have hfix2 := congrArg Store.repositories hfix
              simpa using hfix2.symm
            refine update_repo_data_of_pointwise_id hevr3 hfn3 hu3 ?_
            intro r hr
            rcases hupd' with ⟨hs1, -, -, -⟩ | hs1
            · rw [hrepos', hs1] at hr
              exact hpt r hr
            · rw [hrepos', hs1] at hr
              obtain ⟨x, hx, rfl⟩ := List.mem_map.mp hr
              by_cases hxrt : x.id = rt.id
              · have hxro : x.id ≠ repo'.id := by rw [hxrt]; exact hidne
                rw [updFn_noop_of_ne hxro]
                exact hpt x hx
              · have hne2 : (updFn repo' fn' u2 x).id ≠ rt.id := by
                  rw [updFn_id]; exact hxrt
                exact updFn_noop_of_ne hne2
        have hpc2 : processCommits o rt.id (ev.commits.getD []) [] t' = .ok t' :=
          processCommits_replay hpct hext
        unfold pushCall
        simp only [hgr2, hup2, hpc2]

/-! ## Fan-out idempotence -/

theorem runOrgs_push_extends {i : IntegrationRec} {ev : Event} :
    ∀ {orgs : List Nat} {s s1 : Store} {logs : List String},
    runOrgs .push i ev orgs s = .ok s1 logs → StoreExtends s s1 ∧ logs = [] := by
  intro orgs
  induction orgs with
  | nil =>
    intro s s1 logs h
    simp only [runOrgs] at h
    rcases h with ⟨rfl, rfl⟩
    exact ⟨storeExtends_refl _, rfl⟩
  | cons o rest ih =>
    intro s s1 logs h
    simp only [runOrgs, callHandler] at h
    rcases hcall : pushCall s i o ev with ⟨s2, l2⟩ | ⟨e, sx, lx⟩
    · simp only [hcall] at h
      rcases hrest : runOrgs .push i ev rest s2 with ⟨s3, l3⟩ | ⟨e3, s3, l3⟩
      · simp only [hrest, HRes.ok.injEq] at h
        rcases h with ⟨rfl, rfl⟩
        obtain ⟨hx2, hl3⟩ := ih hrest
        obtain ⟨hlogs2, -⟩ := pushCall_ok_inv hcall
        exact ⟨storeExtends_trans (pushCall_extends hcall).1 hx2, by rw [hlogs2, hl3]; rfl⟩
      · simp only [hrest] at h; cases h
    · simp only [hcall] at h; cases h

theorem runOrgs_done_preserved {i : IntegrationRec} {ev : Event} {o : Nat} :
    ∀ {rest : List Nat} {t t1 : Store} {logs : List String},
    RepoIdsNodup t → pushCall t i o ev = .ok t [] →
    runOrgs .push i ev rest t = .ok t1 logs →
    pushCall t1 i o ev = .ok t1 [] ∧ RepoIdsNodup t1 := by
  intro rest
  induction rest with
  | nil =>
    intro t t1 logs hn hd h
    simp only [runOrgs] at h
    rcases h with ⟨rfl, rfl⟩
    exact ⟨hd, hn⟩
  | cons o2 rest2 ih =>
    intro t t1 logs hn hd h
    simp only [runOrgs, callHandler] at h
    rcases hcall : pushCall t i o2 ev with ⟨t2, l2⟩ | ⟨e, tx, lx⟩
    · simp only [hcall] at h
      rcases hrest : runOrgs .push i ev rest2 t2 with ⟨t3, l3⟩ | ⟨e3, t3, l3⟩
      · simp only [hrest, HRes.ok.injEq] at h
        rcases h with ⟨rfl, rfl⟩
        exact ih (RepoIdsNodup.preserve (pushCall_extends hcall).1 hn)
          (pushCall_done_preserved hn hd hcall) hrest
      · simp only [hrest] at h; cases h
    · simp only [hcall] at h; cases h

/-- Re-running the per-organization push fan-out on its own result succeeds
and leaves the store unchanged. -/
theorem runOrgs_push_replay {i : IntegrationRec} {ev : Event} :
    ∀ {orgs : List Nat} {s s1 : Store} {logs : List String},
    RepoIdsNodup s → runOrgs .push i ev orgs s = .ok s1 logs →
    runOrgs .push i ev orgs s1 = .ok s1 [] := by
  intro orgs
  induction orgs with
  | nil =>
    intro s s1 logs _ h
    simp only [runOrgs] at h
    rcases h with ⟨rfl, rfl⟩
    rfl
  | cons o rest ih =>
    intro s s1 logs hn h
    simp only [runOrgs, callHandler] at h
    rcases hcall : pushCall s i o ev with ⟨s2, l2⟩ | ⟨e, sx, lx⟩
    · simp only [hcall] at h
      rcases hrest : runOrgs .push i ev rest s2 with ⟨s3, l3⟩ | ⟨e3, s3, l3⟩
      · simp only [hrest, HRes.ok.injEq] at h
        rcases h with ⟨rfl, rfl⟩
        have hn2 : RepoIdsNodup s2 := RepoIdsNodup.preserve (pushCall_extends hcall).1 hn
        have hdone2 : pushCall s2 i o ev = .ok s2 [] := pushCall_self hcall
        obtain ⟨hdone1, -⟩ := runOrgs_done_preserved hn2 hdone2 hrest
        have hrest1 : runOrgs .push i ev rest s3 = .ok s3 [] := ih hn2 hrest
        simp only [runOrgs, callHandler, hdone1, hrest1]
        rfl
      · simp only [hrest] at h; cases h
    · simp only [hcall] at h; cases h

theorem integrationQuery_congr {s t : Store} (h : t.integrations = s.integrations)
    (provider ext : String) : integrationQuery t provider ext = integrationQuery s provider ext := by
  unfold integrationQuery; rw [h]

/-- Inversion of a delivery that returned 204: every authentication check
passed and the fan-out succeeded. -/
theorem post_204_inv {r : Request} {s : Store} {out : PostOut} (h : post r s = out)
    (h204 : out.result = .response 204) :
    ∃ signature event secret ext ws integration et hk,
      r.http_x_gitea_signature = some signature ∧ r.parsed = some event ∧
      event.secret = some secret ∧ splitSecret secret = some (ext, ws) ∧
      check_signature r.body secret signature = true ∧
      integrationQuery s "gitea" ext = [integration] ∧
      constant_time_compare ws integration.metadata.webhook_secret = true ∧
      r.http_x_gitea_event = some et ∧ handlersMap et = some hk ∧
      runOrgs hk integration event integration.organizations s = .ok out.state out.logs := by
  unfold post at h
  split at h
  · rw [← h] at h204; simp at h204
  · rename_i signature hsig
    split at h
    · rw [← h] at h204; simp at h204
    · rename_i event hparsed
      split at h
      · rw [← h] at h204; simp at h204
      · rename_i secret hsecret
        split at h
        · rw [← h] at h204; simp at h204
        · rename_i ext ws hsplit
          split at h
          · rename_i hsigok
            split at h
            · rw [← h] at h204; simp at h204
            · rw [← h] at h204; simp at h204
            · rename_i integration hquery
              split at h
              · rename_i hct
                split at h
                · rw [← h] at h204; simp at h204
                · rename_i et het
                  split at h
                  · rw [← h] at h204; simp at h204
                  · rename_i hk hhk
                    split at h
                    · rename_i s1 logs1 hrun
                      refine ⟨signature, event, secret, ext, ws, integration, et, hk,
                        hsig, hparsed, hsecret, hsplit, hsigok, hquery, hct, het, hhk, ?_⟩
                      rw [← h]
                      exact hrun
                    · rw [← h] at h204; simp at h204
                    · rw [← h] at h204; simp at h204
              · rw [← h] at h204; simp at h204
          · rw [← h] at h204; simp at h204

/-- C2: Commit ingestion is idempotent: if a push-event delivery succeeded
with status 204, then delivering the identical request again against the
resulting store succeeds with status 204 and changes nothing — every
duplicate Commit insert's unique-constraint conflict is silently swallowed —
and a delivery never drives the number of Commit rows per (repository,
external key) above one. -/
theorem push_delivery_idempotent (r : Request) (s : Store)
    (hnodup : RepoIdsNodup s) (hpush : r.http_x_gitea_event = some "push")
    (h204 : (post r s).result = .response 204) :
    (post r (post r s).state).result = .response 204 ∧
    (post r (post r s).state).state = (post r s).state ∧
    ∀ rid k, commitCount (post r s).state rid k ≤ max (commitCount s rid k) 1 := by
  obtain ⟨signature, event, secret, ext, ws, integration, et, hk, hsig, hparsed, hsecret,
    hsplit, hsigok, hquery, hct, het, hhk, hrun⟩ := post_204_inv rfl h204
  have hets : et = "push" := by rw [hpush] at het; exact (Option.some.inj het).symm
  subst hets
  have hkpush : hk = .push := by
    have hm : handlersMap "push" = some .push := rfl
    rw [hm] at hhk
    exact (Option.some.inj hhk).symm
  subst hkpush
  have hext : StoreExtends s (post r s).state := (runOrgs_push_extends hrun).1
  obtain ⟨logs1, hrunX⟩ : ∃ l, runOrgs .push integration event integration.organizations s =
      .ok (post r s).state l := ⟨_, hrun⟩
  generalize hg : (post r s).state = s1 at hrunX hext ⊢
  have hreplay : runOrgs .push integration event integration.organizations s1
      = .ok s1 [] := runOrgs_push_replay hnodup hrunX
  have hq1 : integrationQuery s1 "gitea" ext = [integration] := by
    rw [integrationQuery_congr hext.integ]
    exact hquery
  have hm : handlersMap "push" = some HandlerKind.push := rfl
  have hpost2 : post r s1 = ⟨.response 204, [], s1⟩ := by
    unfold post
    simp only [hsig, hparsed, hsecret, hsplit, hsigok, if_true, hq1, hct, hpush, hm, hreplay]
  rw [hpost2]
  exact ⟨rfl, rfl, hext.commit_bound⟩

/-! ## Remaining helper lemmas -/

theorem lookupConfig_configInsert (c : List (String × String)) (k v : String) :
    lookupConfig (configInsert c k v) k = some v := by
  induction c with
  | nil => simp [configInsert, lookupConfig]
  | cons hd tl ih =>
    by_cases h : (hd.1 == k) = true
    · simp [configInsert, lookupConfig, h]
    · simp only [Bool.not_eq_true] at h
      simp [configInsert, lookupConfig, h, ih]

theorem update_repo_data_ok_exists {s : Store} {repo : RepositoryRec} {ev : Event}
    {er : RepoPayload} {fn u : String}
    (hevr : ev.repository = some er) (hfn : er.full_name = some fn)
    (hu : er.html_url = some u) :
    ∃ s1, update_repo_data s repo ev = .ok s1 ∧ s1.commit_authors = s.commit_authors ∧
      s1.commits = s.commits ∧ s1.pull_requests = s.pull_requests := by
  unfold update_repo_data
  simp only [hevr, hfn, hu]
  by_cases hc : (repo.name != fn || repo.url != u ||
      lookupConfig repo.config "repo" != some fn) = true
  · rw [if_pos hc]; exact ⟨_, rfl, rfl, rfl, rfl⟩
  · rw [if_neg hc]; exact ⟨s, rfl, rfl, rfl, rfl⟩

theorem commitCreateOrIgnore_commits_origin (s : Store) (c : CommitRec) :
    ∀ cc ∈ (commitCreateOrIgnore s c).commits, cc ∈ s.commits ∨ cc = c := by
  unfold commitCreateOrIgnore
  by_cases h : commitExists s c.repository_id c.key = true
  · rw [if_pos h]; exact fun cc hc => Or.inl hc
  · rw [if_neg h]
    intro cc hc
    rcases List.mem_append.mp hc with hc | hc
    · exact Or.inl hc
    · exact Or.inr (List.mem_singleton.mp hc)

theorem stepCommit_commits_origin {c : CommitPayload} {oid rid : Nat}
    {A A' : List (String × Nat)} {s s1 : Store}
    (h : stepCommit c oid rid A s = .ok (A', s1)) :
    ∀ cc ∈ s1.commits, cc ∈ s.commits ∨ cc.repository_id = rid := by
  have hfin : ∀ (msg : String) (author : Option Nat) (B B' : List (String × Nat)) (t t1 : Store),
      commitFinish c oid rid msg author B t = .ok (B', t1) → t.commits = s.commits →
      ∀ cc ∈ t1.commits, cc ∈ s.commits ∨ cc.repository_id = rid := by
    intro msg author B B' t t1 hf hteq cc hcc
    unfold commitFinish at hf
    rcases hid : c.id with _ | cid
    · rw [hid] at hf; cases hf
    · rw [hid] at hf
      rcases hts : c.timestamp with _ | ts
      · rw [hts] at hf; cases hf
      · rw [hts] at hf
        simp only [Except.ok.injEq, Prod.mk.injEq] at hf
        rw [← hf.2] at hcc
        rcases commitCreateOrIgnore_commits_origin t
          ⟨rid, oid, cid, msg, author, parse_datetime ts⟩ cc hcc with hm | hm
        · rw [hteq] at hm; exact Or.inl hm
        · exact Or.inr (by rw [hm])
  unfold stepCommit at h
  rcases hm : c.message with _ | message
  · simp only [hm] at h; cases h
  · simp only [hm] at h
    by_cases hig : should_ignore_commit message = true
    · rw [if_pos hig] at h
      simp only [Except.ok.injEq, Prod.mk.injEq] at h
      rw [← h.2]
      exact fun cc hcc => Or.inl hcc
    · rw [if_neg hig] at h
      rcases hau : c.author with _ | ap
      · simp only [hau] at h; cases h
      · simp only [hau] at h
        rcases hem : ap.email with _ | (_ | author_email)
        · simp only [hem] at h; cases h
        · simp only [hem] at h
          exact hfin _ _ _ _ _ _ h rfl
        · simp only [hem] at h
          by_cases hlen : 75 < author_email.length
          · rw [if_pos hlen] at h
            exact hfin _ _ _ _ _ _ h rfl
          · rw [if_neg hlen] at h
            rcases hfa : A.filter (fun p => p.1 == author_email) with _ | ⟨⟨e0, aid⟩, rest0⟩
            · simp only [hfa] at h
              rcases hnm : ap.name with _ | nm
              · simp only [hnm] at h; cases h
              · simp only [hnm] at h
                rcases hgc : commitAuthorGetOrCreate s oid author_email nm with e2 | ⟨a, s2⟩
                · simp only [hgc] at h; cases h
                · simp only [hgc] at h
                  exact hfin _ _ _ _ _ _ h (commitAuthorGetOrCreate_ok hgc).2.2.2.2.1
            · simp only [hfa] at h
              exact hfin _ _ _ _ _ _ h rfl

theorem processCommits_commits_origin {oid rid : Nat} :
    ∀ {cs : List CommitPayload} {A : List (String × Nat)} {s s' : Store},
    processCommits oid rid cs A s = .ok s' →
    ∀ cc ∈ s'.commits, cc ∈ s.commits ∨ cc.repository_id = rid := by
  intro cs
  induction cs with
  | nil =>
    intro A s s' h cc hcc
    cases h
    exact Or.inl hcc
  | cons c rest ih =>
    intro A s s' h cc hcc
    rcases hstep : stepCommit c oid rid A s with ⟨e, s1⟩ | ⟨A1, s1⟩
    · simp only [processCommits, hstep] at h; cases h
    · simp only [processCommits, hstep] at h
      rcases ih h cc hcc with hm | hm
      · exact stepCommit_commits_origin hstep cc hm
      · exact Or.inr hm

/-! ## Claim theorems and fixtures -/

/-- C1: Signature verification is correct: `check_signature(B, S, sig)`
returns true exactly when `sig` equals the lowercase-hex HMAC-SHA256 of `B`
keyed by the UTF-8 encoding of `S`; in particular the genuine signature
verifies and every other signature string is rejected. -/
theorem check_signature_correct (body : List Nat) (secret signature : String) :
    check_signature body secret signature = true ↔
      signature = hmacSha256Hexdigest (utf8Encode secret) body := by
  unfold check_signature
  rw [constant_time_compare_iff]
  exact eq_comm

theorem post_400_state_eq {r : Request} {s : Store} {out : PostOut} (h : post r s = out)
    (h400 : out.result = .response 400) : out.state = s := by
  unfold post at h
  split at h
  · rw [← h]
  · split at h
    · rw [← h]
    · split at h
      · rw [← h]
      · split at h
        · rw [← h]
        · split at h
          · split at h
            · rw [← h]
            · rw [← h] at h400; simp at h400
            · split at h
              · split at h
                · rw [← h] at h400; simp at h400
                · split at h
                  · rw [← h]
                  · split at h
                    · rw [← h] at h400; simp at h400
                    · rw [← h] at h400; simp at h400
                    · rw [← h] at h400; simp at h400
              · rw [← h]
          · rw [← h]

/-- C4: Authentication-failure atomicity: whenever a delivery is rejected
with HTTP 400 — bad or missing signature, unparseable JSON, bad or
malformed secret, unknown installation, stored-secret mismatch, or unknown
event type — the store is left exactly as it was: no Commit, CommitAuthor,
PullRequest, or Repository row is created or updated. -/
theorem post_400_no_mutation (r : Request) (s : Store)
    (h400 : (post r s).result = .response 400) : (post r s).state = s :=
  post_400_state_eq rfl h400

/-- C4 witness: a request without a signature header against a store with
one installation is rejected 400 and the store is untouched. -/
theorem post_400_no_mutation_witness :
    (post ⟨none, none, [], none⟩ ⟨[], [], [], [], [], 0⟩).result = .response 400 ∧
    (post ⟨none, none, [], none⟩ ⟨[], [], [], [], [], 0⟩).state = ⟨[], [], [], [], [], 0⟩ :=
  ⟨rfl, post_400_no_mutation ⟨none, none, [], none⟩ ⟨[], [], [], [], [], 0⟩ rfl⟩

/-! ### Shared test fixtures -/

def metaG : Metadata := ⟨"inst", "sec"⟩

def integG : IntegrationRec := ⟨1, "gitea", "ext", metaG, [10]⟩

def bodyG : List Nat := utf8Encode "x"

/-- The genuine signature of `bodyG` under the composite secret. -/
def sigG : String := hmacSha256Hexdigest (utf8Encode "ext#sec") bodyG

def repoG : RepositoryRec :=
  ⟨5, 10, PROVIDER_NAME, "inst:o/r", "o/r", "http://g/o/r", [("repo", "o/r")]⟩

/-- Store with one installation (organization 10) and one matching
repository whose stored data agrees with the events used below. -/
def storeR : Store := ⟨[integG], [repoG], [], [], [], 100⟩

def storeC3 : Store := ⟨[], [], [], [], [], 0⟩

def rqC3 : Request :=
  ⟨some "deadbeef", some "push", [120], some ⟨some "nodelimiter", none, none, none⟩⟩

/-- C3 counterexample: a request whose embedded secret field is malformed
(missing the `#` delimiter) and whose signature is invalid is rejected 400
by the *secret-parsing* step: the emitted log event is `invalid-secret`, not
`invalid-signature` — the signature check is never reached, contradicting
the claimed signature-before-secret order. -/
theorem secret_parsed_before_signature_cex :
    post rqC3 storeC3 = ⟨.response 400, ["gitea.webhook.invalid-secret"], storeC3⟩ := by
  rfl

/-- C3 (amended): the endpoint decides its checks in the order
signature-header presence, JSON parse, secret parse, signature
verification, installation lookup, stored-secret comparison, event type.
In particular a request whose embedded secret field is malformed is
rejected 400 by secret parsing regardless of its signature, which is never
verified. -/
theorem secret_parse_rejects_before_signature (r : Request) (s : Store) (sig : String)
    (event : Event) (secret : String)
    (hsig : r.http_x_gitea_signature = some sig) (hparsed : r.parsed = some event)
    (hsecret : event.secret = some secret) (hsplit : splitSecret secret = none) :
    post r s = ⟨.response 400, ["gitea.webhook.invalid-secret"], s⟩ := by
  unfold post
  simp only [hsig, hparsed, hsecret, hsplit]

/-- C3 witness: instantiation of the amended ordering theorem at the
concrete malformed-secret request. -/
theorem secret_parse_rejects_before_signature_witness :
    splitSecret "nodelimiter" = none ∧
    post rqC3 storeC3 = ⟨.response 400, ["gitea.webhook.invalid-secret"], storeC3⟩ :=
  ⟨rfl, secret_parse_rejects_before_signature rqC3 storeC3 "deadbeef"
    ⟨some "nodelimiter", none, none, none⟩ "nodelimiter" rfl rfl rfl rfl⟩

def eventC7 : Event := ⟨some "ext#sec", none, none, none⟩

def rqC7 : Request := ⟨some sigG, none, bodyG, some eventC7⟩

/-- C7 (failing input): a fully authenticated request whose event-type
header is entirely absent is not answered with 400: the `except KeyError`
branch re-reads the missing header while building the `missing-event` log
record and the fresh `KeyError` escapes uncaught (an HTTP 500), with no log
emitted. -/
theorem missing_event_header_uncaught_keyerror :
    post rqC7 storeR = ⟨.uncaught (.keyError "HTTP_X_GITEA_EVENT"), [], storeR⟩ := by
  rfl

def prUserC5 : UserPayload := ⟨some "alice", some (some "alice@example.com")⟩

/-- Pull-request payload with every field present except `merged`. -/
def prPayloadC5 : PRPayload :=
  ⟨some 7, some "T", some "B", some "2020-01-01T00:00:00Z", some prUserC5, none, none⟩

def eventC5 : Event :=
  ⟨some "ext#sec", some ⟨some "o/r", some "http://g/o/r"⟩, none, some prPayloadC5⟩

def rqC5 : Request := ⟨some sigG, some "pull_request", bodyG, some eventC5⟩

/-- C5 (failing input): a fully authenticated pull-request event carrying
every required field except `merged` is not rejected with 404: the handler
logs `invalid-pull-request-data`, creates a CommitAuthor row, and then dies
with an uncaught unbound-local `NameError` on `merge_commit_sha`
(an HTTP 500) — state has been mutated. -/
theorem pr_missing_merged_uncaught_nameerror :
    post rqC5 storeR = ⟨.uncaught (.nameError "merge_commit_sha"),
      ["gitea.webhook.invalid-pull-request-data"],
      ⟨[integG], [repoG], [⟨100, 10, "alice@example.com", "alice"⟩], [], [], 101⟩⟩ := by
  rfl

def commitC6 : CommitPayload := ⟨some "c1", some "m", some "t", some ⟨some "Bob", some (some "")⟩⟩

def eventC6 : Event :=
  ⟨some "ext#sec", some ⟨some "o/r", some "http://g/o/r"⟩, some [commitC6], none⟩

/-- C6 counterexample: a push commit entry whose author email is present
but *empty* is not treated as authorless — the handler creates a
CommitAuthor row with empty email and attaches it to the new Commit
(`author = some 100`, not `none`). -/
theorem push_empty_email_creates_author :
    pushCall storeR integG 10 eventC6 =
      .ok ⟨[integG], [repoG], [⟨100, 10, "", "Bob"⟩],
        [⟨5, 10, "c1", "m", some 100, "t"⟩], [], 101⟩ [] := by
  rfl

/-- C6 (amended): a push commit entry whose author email is JSON-`null` or
longer than 75 characters yields a Commit row with a null author and no new
CommitAuthor row, without rejecting the request; an empty-string email is
*not* treated as absent (see the counterexample). -/
theorem push_null_or_long_email_null_author
    (s : Store) (integ : IntegrationRec) (oid : Nat) (ev : Event)
    (repo : RepositoryRec) (er : RepoPayload) (fn u : String) (c : CommitPayload)
    (msg cid ts : String) (ap : AuthorPayload) (emailv : Option String)
    (hevr : ev.repository = some er) (hfn : er.full_name = some fn)
    (hu : er.html_url = some u)
    (hq : repoQuery s oid (integ.metadata.instanceName ++ ":" ++ fn) = [repo])
    (hcs : ev.commits = some [c])
    (hmsg : c.message = some msg) (hnoign : should_ignore_commit msg = false)
    (hap : c.author = some ap) (hem : ap.email = some emailv)
    (hbad : emailv = none ∨ ∃ e, emailv = some e ∧ 75 < e.length)
    (hid : c.id = some cid) (hts : c.timestamp = some ts)
    (hnew : commitExists s repo.id cid = false) :
    ∃ s1, pushCall s integ oid ev = .ok s1 [] ∧
      s1.commit_authors = s.commit_authors ∧
      s1.commits = s.commits ++ [⟨repo.id, oid, cid, msg, none, parse_datetime ts⟩] := by
  have hgr : get_repo s integ oid ev = .ok (some repo) := by
    unfold get_repo
    simp only [hevr, hfn, hq]
  obtain ⟨s1, hup, hca, hcm, hpr⟩ :=
    @update_repo_data_ok_exists s repo _ _ _ _ hevr hfn hu
  have hex1 : commitExists s1 repo.id cid = false := by
    unfold commitExists at hnew ⊢
    rw [hcm]
    exact hnew
  have hstep : stepCommit c oid repo.id [] s1 =
      .ok ([], { s1 with commits := s1.commits ++
        [⟨repo.id, oid, cid, msg, none, parse_datetime ts⟩] }) := by
    unfold stepCommit
    rcases hbad with rfl | ⟨e, rfl, hlen⟩
    · simp only [hmsg, hap, hem]
      rw [if_neg (by rw [hnoign]; exact Bool.false_ne_true)]
      unfold commitFinish
      simp only [hid, hts]
      unfold commitCreateOrIgnore
      rw [if_neg (by rw [hex1]; exact Bool.false_ne_true)]
    · simp only [hmsg, hap, hem]
      rw [if_neg (by rw [hnoign]; exact Bool.false_ne_true)]
      rw [if_pos hlen]
      unfold commitFinish
      simp only [hid, hts]
      unfold commitCreateOrIgnore
      rw [if_neg (by rw [hex1]; exact Bool.false_ne_true)]
  refine ⟨{ s1 with commits := s1.commits ++
      [⟨repo.id, oid, cid, msg, none, parse_datetime ts⟩] }, ?_, hca, ?_⟩
  · unfold pushCall
    simp only [hgr, hup, hcs]
    simp only [processCommits, hstep]
  · show s1.commits ++ _ = s.commits ++ _
    rw [hcm]

/-- C6 witness: a commit entry with an 80-character email produces a Commit
with a null author and no CommitAuthor row. -/
theorem push_null_or_long_email_null_author_witness :
    (∃ e, some (String.mk (List.replicate 80 'a')) = some e ∧ 75 < e.length) ∧
    commitExists storeR 5 "c1" = false ∧
    ∃ s1, pushCall storeR integG 10
        ⟨some "ext#sec", some ⟨some "o/r", some "http://g/o/r"⟩,
          some [⟨some "c1", some "m", some "t",
            some ⟨some "Bob", some (some (String.mk (List.replicate 80 'a')))⟩⟩], none⟩ =
        .ok s1 [] ∧
      s1.commit_authors = storeR.commit_authors ∧
      s1.commits = storeR.commits ++ [⟨5, 10, "c1", "m", none, parse_datetime "t"⟩] :=
  ⟨⟨String.mk (List.replicate 80 'a'), rfl, by decide⟩, rfl,
    push_null_or_long_email_null_author storeR integG 10
      ⟨some "ext#sec", some ⟨some "o/r", some "http://g/o/r"⟩,
        some [⟨some "c1", some "m", some "t",
          some ⟨some "Bob", some (some (String.mk (List.replicate 80 'a')))⟩⟩], none⟩
      repoG ⟨some "o/r", some "http://g/o/r"⟩ "o/r" "http://g/o/r"
      ⟨some "c1", some "m", some "t",
        some ⟨some "Bob", some (some (String.mk (List.replicate 80 'a')))⟩⟩
      "m" "c1" "t" ⟨some "Bob", some (some (String.mk (List.replicate 80 'a')))⟩
      (some (String.mk (List.replicate 80 'a')))
      rfl rfl rfl rfl rfl rfl rfl rfl rfl
      (Or.inr ⟨String.mk (List.replicate 80 'a'), rfl, by decide⟩) rfl rfl rfl⟩

/-! ### C8 fixtures: one installation fanning out to organizations 10 and 20 -/

def integ2 : IntegrationRec := ⟨1, "gitea", "ext", metaG, [10, 20]⟩

def repoA : RepositoryRec := ⟨5, 10, PROVIDER_NAME, "inst:o/r", "OLDNAME", "http://old", []⟩

def repoB : RepositoryRec := ⟨6, 20, PROVIDER_NAME, "inst:o/r", "OLDNAME2", "http://old2", []⟩

def storeC8 : Store := ⟨[integ2], [repoA, repoB], [], [], [], 100⟩

/-- Pull-request payload whose `user` object has no `email` key. -/
def prNoEmail : PRPayload :=
  ⟨some 7, some "T", some "B", some "2020-01-01T00:00:00Z", some ⟨some "alice", none⟩,
    some false, none⟩

def eventC8 : Event :=
  ⟨some "ext#sec", some ⟨some "o/r", some "http://new"⟩, none, some prNoEmail⟩

def rqC8 : Request := ⟨some sigG, some "pull_request", bodyG, some eventC8⟩

/-- C8 counterexample: organizations 10 and 20 both track the event's
repository under drifted names.  Organization 10 is processed first: its
repository row is updated, then its handler raises `Http404` (missing
author email).  The exception aborts the fan-out: organization 20's handler
is never invoked and its row keeps the stale name and URL. -/
theorem pr_failure_aborts_fanout_cex :
    post rqC8 storeC8 = ⟨.response 404, ["gitea.webhook.invalid-pull-request-data"],
      ⟨[integ2],
        [⟨5, 10, PROVIDER_NAME, "inst:o/r", "o/r", "http://new", [("path", "o/r")]⟩, repoB],
        [], [], [], 100⟩⟩ := by
  rfl

/-- C8 (amended): an exception raised while handling one organization
aborts the per-organization fan-out loop: the delivery's response and final
store are exactly those at the moment of the failure, independent of the
organizations remaining in the iteration order (whose handlers are never
invoked), while writes already performed persist — nothing is rolled
back. -/
theorem handler_failure_aborts_fanout (r : Request) (s : Store) (sig : String)
    (event : Event) (secret ext ws : String) (integ : IntegrationRec) (et : String)
    (hk : HandlerKind) (o : Nat) (rest : List Nat) (e : Exc) (s1 : Store)
    (logs1 : List String)
    (hsig : r.http_x_gitea_signature = some sig) (hparsed : r.parsed = some event)
    (hsecret : event.secret = some secret) (hsplit : splitSecret secret = some (ext, ws))
    (hok : check_signature r.body secret sig = true)
    (hq : integrationQuery s "gitea" ext = [integ])
    (hct : constant_time_compare ws integ.metadata.webhook_secret = true)
    (het : r.http_x_gitea_event = some et) (hhk : handlersMap et = some hk)
    (horgs : integ.organizations = o :: rest)
    (hfail : callHandler hk s integ o event = .exc e s1 logs1) :
    post r s = ⟨if e = .http404 then .response 404 else .uncaught e, logs1, s1⟩ := by
  unfold post
  simp only [hsig, hparsed, hsecret, hsplit, hok, if_true, hq, hct, het, hhk, horgs]
  simp only [runOrgs, hfail]
  cases e <;> rfl

/-- C8 witness: at the concrete two-organization store, organization 10's
`Http404` yields the 404 response and final store of the failure point;
organization 20 (the rest of the list) never runs. -/
theorem handler_failure_aborts_fanout_witness :
    callHandler .pull_request storeC8 integ2 10 eventC8 =
      .exc .http404
        ⟨[integ2],
          [⟨5, 10, PROVIDER_NAME, "inst:o/r", "o/r", "http://new", [("path", "o/r")]⟩, repoB],
          [], [], [], 100⟩
        ["gitea.webhook.invalid-pull-request-data"] ∧
    post rqC8 storeC8 =
      ⟨if Exc.http404 = Exc.http404 then PostResult.response 404 else .uncaught .http404,
        ["gitea.webhook.invalid-pull-request-data"],
        ⟨[integ2],
          [⟨5, 10, PROVIDER_NAME, "inst:o/r", "o/r", "http://new", [("path", "o/r")]⟩, repoB],
          [], [], [], 100⟩⟩ :=
  ⟨rfl, handler_failure_aborts_fanout rqC8 storeC8 sigG eventC8 "ext#sec" "ext" "sec"
    integ2 "pull_request" .pull_request 10 [20] .http404
    ⟨[integ2],
      [⟨5, 10, PROVIDER_NAME, "inst:o/r", "o/r", "http://new", [("path", "o/r")]⟩, repoB],
      [], [], [], 100⟩
    ["gitea.webhook.invalid-pull-request-data"]
    rfl rfl rfl rfl rfl rfl rfl rfl rfl rfl rfl⟩

/-- C9: Rename tolerance: when an event reports a repository whose name,
URL, or configured repo path differ from the stored row, but whose derived
external identifier `<instance>:<full_name>` still finds a registered
Repository of the organization (lookup is by external identifier, never by
name), a successful push run updates that row in place — new name, new URL,
and the full name under the config `path` key — and every Commit row the
run adds is attached to that same repository's primary key. -/
theorem push_rename_updates_repo_in_place
    (s s' : Store) (integ : IntegrationRec) (oid : Nat) (ev : Event) (logs : List String)
    (repo : RepositoryRec) (er : RepoPayload) (fn u : String)
    (hevr : ev.repository = some er) (hfn : er.full_name = some fn)
    (hu : er.html_url = some u)
    (hq : repoQuery s oid (integ.metadata.instanceName ++ ":" ++ fn) = [repo])
    (hdrift : repo.name ≠ fn ∨ repo.url ≠ u ∨ lookupConfig repo.config "repo" ≠ some fn)
    (hrun : pushCall s integ oid ev = .ok s' logs) :
    (∃ repo', repo' ∈ s'.repositories ∧ repo'.id = repo.id ∧ repo'.name = fn ∧
      repo'.url = u ∧ lookupConfig repo'.config "path" = some fn) ∧
    (∀ c ∈ s'.commits, c ∈ s.commits ∨ c.repository_id = repo.id) := by
  have hgr : get_repo s integ oid ev = .ok (some repo) := by
    unfold get_repo
    simp only [hevr, hfn, hq]
  obtain ⟨-, hcase⟩ := pushCall_ok_inv hrun
  rcases hcase with ⟨hgrn, rfl⟩ | ⟨repo2, s1, hgr2, hup, hpc⟩
  · rw [hgr] at hgrn
    simp at hgrn
  · rw [hgr] at hgr2
    have hrepo2 : repo2 = repo := by
      have := Option.some.inj (Except.ok.inj hgr2)
      exact this.symm
    rw [hrepo2] at hup hpc
    obtain ⟨er2, fn2, u2, hevr2, hfn2, hu2, hupd⟩ := update_repo_data_ok_inv hup
    have her : er2 = er := by
      rw [hevr] at hevr2; exact (Option.some.inj hevr2).symm
    rw [her] at hfn2 hu2
    have hfneq : fn2 = fn := by
      rw [hfn] at hfn2; exact (Option.some.inj hfn2).symm
    have hueq : u2 = u := by
      rw [hu] at hu2; exact (Option.some.inj hu2).symm
    rw [hfneq, hueq] at hupd
    have hreposS : s'.repositories = s1.repositories := by
      have hpf := processCommits_frame oid repo.id (ev.commits.getD []) [] s1
      rw [hpc] at hpf
      exact hpf.2.1
    have hcommS : s1.commits = s.commits := (update_repo_data_frame hup).2.2.1
    constructor
    · rcases hupd with ⟨-, hnm, hurl, hcfg⟩ | hs1
      · rcases hdrift with hd | hd | hd
        · exact absurd hnm hd
        · exact absurd hurl hd
        · exact absurd hcfg hd
      · refine ⟨updFn repo fn u repo, ?_, ?_, ?_, ?_, ?_⟩
        · rw [hreposS, hs1]
          show updFn repo fn u repo ∈ List.map (updFn repo fn u) s.repositories
          exact List.mem_map.mpr ⟨repo,
            (repoQuery_mem (hq ▸ List.mem_singleton_self repo)).1, rfl⟩
        · exact updFn_id repo fn u repo
        · simp [updFn]
        · simp [updFn]
        · show lookupConfig (updFn repo fn u repo).config "path" = some fn
          have : (updFn repo fn u repo).config = configInsert repo.config "path" fn := by
            simp [updFn]
          rw [this]
          exact lookupConfig_configInsert repo.config "path" fn
    · intro c hc
      rcases processCommits_commits_origin hpc c hc with hm | hm
      · rw [hcommS] at hm; exact Or.inl hm
      · exact Or.inr hm

def storeC9 : Store := ⟨[integG], [repoA], [], [], [], 100⟩

def eventC9 : Event :=
  ⟨some "ext#sec", some ⟨some "o/r", some "http://new"⟩,
    some [⟨some "c1", some "m", some "t", some ⟨some "Bob", some (some "bob@x.com")⟩⟩], none⟩

/-- C9 witness: against a store whose repository row carries a stale name
and URL, a push event found through the unchanged external identifier
updates the row in place and attaches the new Commit to it. -/
theorem push_rename_updates_repo_in_place_witness :
    (repoA.name ≠ "o/r" ∨ repoA.url ≠ "http://new" ∨
      lookupConfig repoA.config "repo" ≠ some "o/r") ∧
    ((∃ repo', repo' ∈
        (⟨[integG],
          [⟨5, 10, PROVIDER_NAME, "inst:o/r", "o/r", "http://new", [("path", "o/r")]⟩],
          [⟨100, 10, "bob@x.com", "Bob"⟩], [⟨5, 10, "c1", "m", some 100, "t"⟩], [], 101⟩ :
            Store).repositories ∧
      repo'.id = repoA.id ∧ repo'.name = "o/r" ∧ repo'.url = "http://new" ∧
      lookupConfig repo'.config "path" = some "o/r") ∧
    (∀ c ∈ (⟨[integG],
          [⟨5, 10, PROVIDER_NAME, "inst:o/r", "o/r", "http://new", [("path", "o/r")]⟩],
          [⟨100, 10, "bob@x.com", "Bob"⟩], [⟨5, 10, "c1", "m", some 100, "t"⟩], [], 101⟩ :
            Store).commits,
        c ∈ storeC9.commits ∨ c.repository_id = repoA.id)) :=
  ⟨Or.inl (by decide),
    push_rename_updates_repo_in_place storeC9 _ integG 10 eventC9 []
      repoA ⟨some "o/r", some "http://new"⟩ "o/r" "http://new"
      rfl rfl rfl rfl (Or.inl (by decide)) rfl⟩

/-- C10: Non-atomic pull-request rejection: a pull-request delivery that
matches a registered repository whose stored name, URL, and config drifted,
updates that repository row, and is then rejected 404 because the author
email is null, keeps the repository update in the final store — the 404
does not undo it — and writes no PullRequest row. -/
theorem pr_404_keeps_repo_update
    (r : Request) (s : Store) (sig : String) (event : Event) (secret ext ws : String)
    (integ : IntegrationRec) (oid : Nat) (repo : RepositoryRec) (er : RepoPayload)
    (fn u : String) (pr : PRPayload) (us : UserPayload) (n : Int) (ti b ca un : String)
    (hsig : r.http_x_gitea_signature = some sig) (hparsed : r.parsed = some event)
    (hsecret : event.secret = some secret) (hsplit : splitSecret secret = some (ext, ws))
    (hok : check_signature r.body secret sig = true)
    (hiq : integrationQuery s "gitea" ext = [integ])
    (hct : constant_time_compare ws integ.metadata.webhook_secret = true)
    (het : r.http_x_gitea_event = some "pull_request")
    (horgs : integ.organizations = [oid])
    (hevr : event.repository = some er) (hfn : er.full_name = some fn)
    (hu : er.html_url = some u)
    (hq : repoQuery s oid (integ.metadata.instanceName ++ ":" ++ fn) = [repo])
    (hdrift : (repo.name != fn || repo.url != u ||
      lookupConfig repo.config "repo" != some fn) = true)
    (hpr : event.pull_request = some pr) (hn : pr.number = some n)
    (hti : pr.title = some ti) (hb : pr.body = some b) (hca : pr.created_at = some ca)
    (hus : pr.user = some us) (hun : us.username = some un) (hue : us.email = some none)
    (hm : pr.merged = some false) :
    post r s = ⟨.response 404, [],
      { s with repositories := s.repositories.map (updFn repo fn u) }⟩ ∧
    (∃ repo', repo' ∈ s.repositories.map (updFn repo fn u) ∧ repo'.id = repo.id ∧
      repo'.name = fn ∧ repo'.url = u ∧ lookupConfig repo'.config "path" = some fn) ∧
    ({ s with repositories := s.repositories.map (updFn repo fn u) }).pull_requests =
      s.pull_requests := by
  have hgr : get_repo s integ oid event = .ok (some repo) := by
    unfold get_repo
    simp only [hevr, hfn, hq]
  have hupd : update_repo_data s repo event =
      .ok { s with repositories := s.repositories.map (updFn repo fn u) } := by
    unfold update_repo_data
    simp only [hevr, hfn, hu]
    rw [if_pos hdrift]
  have hextr : extractPR event = .complete n ti b ca un none none := by
    unfold extractPR
    simp only [hpr, hn, hti, hb, hca, hus, hun, hue, hm]
    rfl
  have hcall : prCall s integ oid event =
      .exc .http404 { s with repositories := s.repositories.map (updFn repo fn u) } [] := by
    unfold prCall
    simp only [hgr, hupd, hextr]
  refine ⟨?_, ?_, rfl⟩
  · unfold post
    simp only [hsig, hparsed, hsecret, hsplit, hok, if_true, hiq, hct, het]
    have hhm : handlersMap "pull_request" = some HandlerKind.pull_request := rfl
    simp only [hhm, horgs]
    simp only [runOrgs, callHandler, hcall]
  · refine ⟨updFn repo fn u repo, ?_, updFn_id repo fn u repo, by simp [updFn], by simp [updFn], ?_⟩
    · exact List.mem_map.mpr ⟨repo,
        (repoQuery_mem (hq ▸ List.mem_singleton_self repo)).1, rfl⟩
    · have hcfg : (updFn repo fn u repo).config = configInsert repo.config "path" fn := by
        simp [updFn]
      rw [hcfg]
      exact lookupConfig_configInsert repo.config "path" fn

def eventC10 : Event :=
  ⟨some "ext#sec", some ⟨some "o/r", some "http://new"⟩, none,
    some ⟨some 7, some "T", some "B", some "2020-01-01T00:00:00Z",
      some ⟨some "alice", some none⟩, some false, none⟩⟩

def rqC10 : Request := ⟨some sigG, some "pull_request", bodyG, some eventC10⟩

/-- C10 witness: at the concrete drifted store, the pull-request delivery
with a null author email is answered 404 while the repository row keeps the
update applied before validation. -/
theorem pr_404_keeps_repo_update_witness :
    (repoA.name != "o/r" || repoA.url != "http://new" ||
      lookupConfig repoA.config "repo" != some "o/r") = true ∧
    post rqC10 storeC9 = ⟨.response 404, [],
      { storeC9 with repositories := storeC9.repositories.map (updFn repoA "o/r" "http://new") }⟩ ∧
    (∃ repo', repo' ∈ storeC9.repositories.map (updFn repoA "o/r" "http://new") ∧
      repo'.id = repoA.id ∧ repo'.name = "o/r" ∧ repo'.url = "http://new" ∧
      lookupConfig repo'.config "path" = some "o/r") :=
  have hmain := pr_404_keeps_repo_update rqC10 storeC9 sigG eventC10 "ext#sec" "ext" "sec"
    integG 10 repoA ⟨some "o/r", some "http://new"⟩ "o/r" "http://new"
    ⟨some 7, some "T", some "B", some "2020-01-01T00:00:00Z",
      some ⟨some "alice", some none⟩, some false, none⟩
    ⟨some "alice", some none⟩ 7 "T" "B" "2020-01-01T00:00:00Z" "alice"
    rfl rfl rfl rfl rfl rfl rfl rfl rfl rfl rfl rfl rfl (by decide)
    rfl rfl rfl rfl rfl rfl rfl rfl rfl
  ⟨by decide, hmain.1, hmain.2.1⟩

def eventC2 : Event :=
  ⟨some "ext#sec", some ⟨some "o/r", some "http://g/o/r"⟩,
    some [⟨some "c1", some "m", some "t", some ⟨some "Bob", some (some "bob@x.com")⟩⟩], none⟩

def rqC2 : Request := ⟨some sigG, some "push", bodyG, some eventC2⟩

/-- C2 witness: a concrete correctly signed push delivery is answered 204,
and replaying the identical request against the resulting store is again
204, leaves the store unchanged, and never stores a commit key twice. -/
theorem push_delivery_idempotent_witness :
    RepoIdsNodup storeR ∧ rqC2.http_x_gitea_event = some "push" ∧
    (post rqC2 storeR).result = .response 204 ∧
    ((post rqC2 (post rqC2 storeR).state).result = .response 204 ∧
      (post rqC2 (post rqC2 storeR).state).state = (post rqC2 storeR).state ∧
      ∀ rid k, commitCount (post rqC2 storeR).state rid k ≤
        max (commitCount storeR rid k) 1) :=
  have h204 : (post rqC2 storeR).result = .response 204 := by rfl
  have hnd : RepoIdsNodup storeR := by
    simp [RepoIdsNodup, storeR]
  ⟨hnd, rfl, h204, push_delivery_idempotent rqC2 storeR hnd rfl h204⟩

end Gitea
